import Mathlib

/-!
Verification development for the mongobleed memory-dump analyzer
(src/analyzer.py).  The byte buffer is modelled as a list of natural
numbers below 256; Python regular-expression scans are modelled by
bespoke matchers that implement the exact leftmost, greedy,
non-overlapping semantics of re.finditer for each concrete pattern of
the source, together with a shared scan driver.  Fallible operations
(strict utf-8 decoding, integer parsing, JSON parsing) return Option or
Except values.
-/

namespace Mongobleed

/-- Buffer of raw bytes, each a natural number (0..255 in practice). -/
abbrev Buf := List Nat

/-- Byte of the buffer at index i, if any. -/
def byteAt (buf : Buf) (i : Nat) : Option Nat := buf[i]?

/-- Contiguous slice of the buffer: n bytes starting at index i
(mirrors Python data[i:i+n]). -/
def slice (buf : Buf) (i n : Nat) : Buf := (buf.drop i).take n

/-- Length of the longest run of bytes satisfying p at the head of the list. -/
def runLenL (p : Nat → Bool) : List Nat → Nat
  | [] => 0
  | b :: bs => if p b then runLenL p bs + 1 else 0

/-- Length of the longest run of bytes satisfying p starting at index i. -/
def runLen (p : Nat → Bool) (buf : Buf) (i : Nat) : Nat :=
  runLenL p (buf.drop i)

/-- Printable ASCII byte, 0x20..0x7E (the class of rb given in
StringExtractor.analyze). -/
def isPrintable (b : Nat) : Bool := 32 ≤ b && b ≤ 126

/-- Python regex whitespace class for byte patterns. -/
def isWs (b : Nat) : Bool :=
  b = 32 || b = 9 || b = 10 || b = 13 || b = 12 || b = 11

/-- Python regex word character for byte patterns, used by word boundaries. -/
def isWordB (b : Nat) : Bool :=
  (48 ≤ b && b ≤ 57) || (65 ≤ b && b ≤ 90) || (97 ≤ b && b ≤ 122) || b = 95

/-- ASCII decimal digit byte. -/
def isDigitB (b : Nat) : Bool := 48 ≤ b && b ≤ 57

/-- ASCII letter byte. -/
def isAlphaB (b : Nat) : Bool := (65 ≤ b && b ≤ 90) || (97 ≤ b && b ≤ 122)

/-- Lower-case an ASCII letter byte (for re.IGNORECASE literal matching). -/
def lowerByte (b : Nat) : Nat := if 65 ≤ b && b ≤ 90 then b + 32 else b

/-- Case-insensitive literal match of kw (given lower-case) at index i. -/
def ciLitAt (kw : List Nat) (buf : Buf) (i : Nat) : Bool :=
  match kw with
  | [] => true
  | k :: ks =>
    match byteAt buf i with
    | some b => lowerByte b = k && ciLitAt ks buf (i + 1)
    | none => false

/-- ASCII code points of a Lean string, used to write byte-string
literals of the source. -/
def strBytes (s : String) : List Nat := s.data.map Char.toNat

/-- Shared re.finditer driver: starting from index i with the given
fuel, try the one-position matcher at each index; on a match record
(start, payload) and resume at the match end (all modelled patterns
consume at least one byte), otherwise advance one position.  Mirrors
the leftmost, non-overlapping scan of re.finditer. -/
def reScanAux {α : Type} (tryAt : Nat → Option (Nat × α)) (len : Nat) :
    Nat → Nat → List (Nat × α)
  | 0, _ => []
  | fuel + 1, i =>
    if len ≤ i then []
    else
      match tryAt i with
      | some (e, a) => (i, a) :: reScanAux tryAt len fuel e
      | none => reScanAux tryAt len fuel (i + 1)

/-- All matches of the one-position matcher over the buffer
(re.finditer). -/
def reScan {α : Type} (tryAt : Nat → Option (Nat × α)) (buf : Buf) :
    List (Nat × α) :=
  reScanAux tryAt buf.length (buf.length + 1) 0

/-! ## UTF-8 decoding

Models of Python bytes.decode.  decode with errors equal to replace or
ignore never fails; the strict form returns an error on the first
invalid sequence.  The error handlers consume the maximal valid prefix
of a sequence (at least one byte), matching CPython. -/

/-- Number of continuation bytes demanded by a lead byte (0 for an
invalid lead). -/
def contCount (b : Nat) : Nat :=
  if 194 ≤ b && b ≤ 223 then 1
  else if 224 ≤ b && b ≤ 239 then 2
  else if 240 ≤ b && b ≤ 244 then 3
  else 0

/-- Plain UTF-8 continuation byte, 0x80..0xBF. -/
def utf8Cont (b : Nat) : Bool := 128 ≤ b && b ≤ 191

/-- Validity of continuation byte c at (1-based) position pos after
lead b, including the range restrictions that exclude overlong forms
and surrogates. -/
def contOk (b pos c : Nat) : Bool :=
  if pos = 1 then
    if b = 224 then 160 ≤ c && c ≤ 191
    else if b = 237 then 128 ≤ c && c ≤ 159
    else if b = 240 then 144 ≤ c && c ≤ 191
    else if b = 244 then 128 ≤ c && c ≤ 143
    else utf8Cont c
  else utf8Cont c

/-- Take the continuation bytes of one sequence: given the lead, the
expected count and the bytes following the lead, return them if all
valid. -/
def takeConts (b : Nat) : Nat → Nat → List Nat → Option (List Nat)
  | 0, _, _ => some []
  | need + 1, pos, cs =>
    match cs with
    | [] => none
    | c :: cs' =>
      if contOk b pos c then
        (takeConts b need (pos + 1) cs').map (fun l => c :: l)
      else none

/-- Code point of a sequence from its lead byte and continuations. -/
def codePointOf (b : Nat) (conts : List Nat) : Nat :=
  let base :=
    if contCount b = 1 then b - 192
    else if contCount b = 2 then b - 224
    else b - 240
  conts.foldl (fun acc c => acc * 64 + (c - 128)) base

/-- Decode one UTF-8 sequence at the head of the list: code point and
number of bytes consumed, or none if the head is not a valid sequence. -/
def utf8Next : List Nat → Option (Nat × Nat)
  | [] => none
  | b :: rest =>
    if b < 128 then some (b, 1)
    else
      let n := contCount b
      if n = 0 then none
      else
        match takeConts b n 1 rest with
        | some conts => some (codePointOf b conts, n + 1)
        | none => none

/-- Number of valid continuation bytes present after an invalid or
truncated lead (for error-handler consumption). -/
def validContLen (b : Nat) : Nat → Nat → List Nat → Nat
  | 0, _, _ => 0
  | need + 1, pos, cs =>
    match cs with
    | [] => 0
    | c :: cs' =>
      if contOk b pos c then validContLen b need (pos + 1) cs' + 1 else 0

/-- Bytes consumed by the replace or ignore error handler at an
invalid position: the maximal valid prefix of a sequence, at least 1. -/
def utf8ErrLen : List Nat → Nat
  | [] => 1
  | b :: rest =>
    if b < 128 then 1
    else
      let n := contCount b
      if n = 0 then 1 else 1 + validContLen b n 1 rest

/-- Fuel-driven decode loop emitting onErr at each invalid sequence. -/
def utf8DecodeWith (onErr : List Char) : Nat → List Nat → List Char
  | 0, _ => []
  | _, [] => []
  | fuel + 1, bs =>
    match utf8Next bs with
    | some (cp, k) => Char.ofNat cp :: utf8DecodeWith onErr fuel (bs.drop k)
    | none => onErr ++ utf8DecodeWith onErr fuel (bs.drop (utf8ErrLen bs))

/-- Python bytes.decode utf-8 with errors replace: invalid sequences
become U+FFFD. -/
def decodeReplace (bs : List Nat) : String :=
  String.mk (utf8DecodeWith ['�'] bs.length bs)

/-- Python bytes.decode utf-8 with errors ignore: invalid sequences
are dropped. -/
def decodeIgnore (bs : List Nat) : String :=
  String.mk (utf8DecodeWith [] bs.length bs)

/-- Python bytes.decode ascii with errors ignore: bytes at or above
0x80 are dropped. -/
def decodeAsciiIgnore (bs : List Nat) : String :=
  String.mk (bs.filterMap (fun b => if b < 128 then some (Char.ofNat b) else none))

/-- Strict utf-8 decode loop (Python bytes.decode utf-8 with no errors
argument): error on the first invalid sequence. -/
def utf8DecodeStrictAux : Nat → List Nat → Except String (List Char)
  | 0, _ => Except.ok []
  | _, [] => Except.ok []
  | fuel + 1, bs =>
    match utf8Next bs with
    | some (cp, k) =>
      (utf8DecodeStrictAux fuel (bs.drop k)).map (fun l => Char.ofNat cp :: l)
    | none => Except.error "UnicodeDecodeError"

/-- Python bytes.decode utf-8 (strict). -/
def utf8DecodeStrict (bs : List Nat) : Except String String :=
  (utf8DecodeStrictAux bs.length bs).map String.mk

/-! ## Small container models

Python dict (insertion ordered, in-place update), collections.Counter
(first-occurrence key order) and the stable descending sort used by
sorted with reverse true and by Counter.most_common. -/

/-- Python dict assignment d[k] = v: update in place if the key is
present, else append. -/
def dictInsert {β : Type} (d : List (String × β)) (k : String) (v : β) :
    List (String × β) :=
  match d with
  | [] => [(k, v)]
  | (k', v') :: rest =>
    if k' = k then (k', v) :: rest else (k', v') :: dictInsert rest k v

/-- Python dict lookup d.get(k). -/
def dictLookup {β : Type} (d : List (String × β)) (k : String) : Option β :=
  match d with
  | [] => none
  | (k', v) :: rest => if k' = k then some v else dictLookup rest k

/-- Bump a key of a Counter represented as an assoc list in
first-occurrence order. -/
def counterBump {α : Type} [DecidableEq α] (d : List (α × Nat)) (k : α) :
    List (α × Nat) :=
  match d with
  | [] => [(k, 1)]
  | (k', c) :: rest =>
    if k' = k then (k', c + 1) :: rest else (k', c) :: counterBump rest k

/-- collections.Counter of a list: keys in first-occurrence order with
their multiplicities. -/
def counterOf {α : Type} [DecidableEq α] (l : List α) : List (α × Nat) :=
  l.foldl counterBump []

/-- Count held by a Counter for a key (0 when absent). -/
def counterGet {α : Type} [DecidableEq α] (d : List (α × Nat)) (k : α) : Nat :=
  match d with
  | [] => 0
  | (k', c) :: rest => if k' = k then c else counterGet rest k

/-- Stable insertion step for a descending sort on the count component:
an element goes after all existing elements of greater or equal count. -/
def insertDesc {α : Type} (x : α × Nat) : List (α × Nat) → List (α × Nat)
  | [] => [x]
  | y :: ys => if y.2 < x.2 then x :: y :: ys else y :: insertDesc x ys

/-- Stable sort by count, descending (Python sorted with key count and
reverse true: ties keep their original relative order). -/
def sortDescByCount {α : Type} (l : List (α × Nat)) : List (α × Nat) :=
  l.foldl (fun acc x => insertDesc x acc) []

/-- Lexicographic comparison of code-point lists (Python str ordering). -/
def lexLt : List Char → List Char → Bool
  | [], [] => false
  | [], _ :: _ => true
  | _ :: _, [] => false
  | a :: as', b :: bs' =>
    if a.toNat < b.toNat then true
    else if b.toNat < a.toNat then false
    else lexLt as' bs'

/-- Insert a string into an ascending sorted list of distinct strings,
skipping duplicates. -/
def insSortedDedup (s : String) : List String → List String
  | [] => [s]
  | t :: ts =>
    if lexLt s.data t.data then s :: t :: ts
    else if s = t then t :: ts
    else t :: insSortedDedup s ts

/-- Python sorted(list(set(l))): ascending list of the distinct
elements. -/
def sortedDedup (l : List String) : List String :=
  l.foldr insSortedDedup []

/-! ## String extractor (StringExtractor)

Pattern rb of at least four printable ASCII bytes.  The leftmost
non-overlapping greedy matches of this pattern are exactly the maximal
printable runs of length at least 4, matched from their first byte. -/

/-- One finding of the string extractor (offset, length, content keys
of the Python dict). -/
structure StrFinding where
  offset : Nat
  length : Nat
  content : String
deriving DecidableEq

/-- Result dict of StringExtractor.analyze. -/
structure StringResult where
  total_strings : Nat
  findings : List StrFinding
deriving DecidableEq

/-- One-position matcher for the printable-run pattern: at i a match
needs a printable run of length at least 4 and greedily consumes the
whole run.  Payload: the run length. -/
def strMatchAt (buf : Buf) (i : Nat) : Option (Nat × Nat) :=
  let r := runLen isPrintable buf i
  if 4 ≤ r then some (i + r, r) else none

namespace StringExtractor

/-- StringExtractor.analyze: all matches, content decoded as strict
ASCII with errors ignore, findings truncated to the first 500. -/
def analyze (buf : Buf) : StringResult :=
  let strings := (reScan (strMatchAt buf) buf).map (fun m =>
    let s := decodeAsciiIgnore (slice buf m.1 m.2)
    { offset := m.1, length := s.length, content := s })
  { total_strings := strings.length, findings := strings.take 500 }

end StringExtractor

/-! ## Credential hunter (CredentialHunter)

Thirteen byte patterns in seven categories, all compiled with
re.IGNORECASE.  Every pattern is of one of four shapes, each modelled
by a matcher returning the match end together with the start and
length of the captured group (group 1 when the pattern has one, else
group 0, as in the source). -/

/-- One finding of the credential hunter (offset, value). -/
structure CredFinding where
  offset : Nat
  value : String
deriving DecidableEq

/-- Separator class of the credential patterns: double quote,
whitespace, colon or equals. -/
def isSep (b : Nat) : Bool := b = 34 || isWs b || b = 58 || b = 61

/-- Class of bytes that are neither whitespace nor null (the capture
class of the password and username patterns and of the URI tails). -/
def isNonWsNull (b : Nat) : Bool := !isWs b && b ≠ 0

/-- Capture class of api keys and secrets: letters, digits, underscore,
hyphen (IGNORECASE leaves it unchanged). -/
def isKeyChar (b : Nat) : Bool := isAlphaB b || isDigitB b || b = 95 || b = 45

/-- Capture class of tokens: letters, digits, underscore, dot, hyphen. -/
def isTokChar (b : Nat) : Bool := isKeyChar b || b = 46

/-- Alphanumeric byte: the class 0-9 A-Z under IGNORECASE, hence also
lower-case letters. -/
def isAlnumB (b : Nat) : Bool := isDigitB b || isAlphaB b

/-- Backtracking search for the separator split: the separator run has
maximal length s, and the greedy group needs at least minLen bytes of
its class; try the largest separator length first (regex backtracking
order).  Returns (separator length, group length). -/
def sepBacktrack (groupClass : Nat → Bool) (minLen : Nat) (buf : Buf)
    (p : Nat) : Nat → Option (Nat × Nat)
  | 0 => none
  | k + 1 =>
    let g := runLen groupClass buf (p + (k + 1))
    if minLen ≤ g then some (k + 1, g)
    else sepBacktrack groupClass minLen buf p k

/-- Shared tail of the keyword patterns: from position p (just after
the keyword), match the separator run and the captured greedy group
with regex backtracking, yielding match end and capture-group start
and length. -/
def sepGroupAssemble (groupClass : Nat → Bool) (minLen : Nat) (buf : Buf)
    (p : Nat) : Option (Nat × (Nat × Nat)) :=
  match sepBacktrack groupClass minLen buf p (runLen isSep buf p) with
  | some (k, g) => some (p + k + g, (p + k, g))
  | none => none

/-- Matcher for patterns keyword, separator class once or more, then a
captured greedy group of at least minLen bytes of groupClass.  The
keyword is matched case-insensitively.  Payload: capture-group start
and length. -/
def kwSepGroupAt (kw : List Nat) (groupClass : Nat → Bool) (minLen : Nat)
    (buf : Buf) (i : Nat) : Option (Nat × (Nat × Nat)) :=
  if ciLitAt kw buf i then sepGroupAssemble groupClass minLen buf (i + kw.length)
  else none

/-- Matcher for the first api-key pattern: literal api, one optional
underscore or hyphen, literal key, then separator and a 16-plus capture
of key characters. -/
def apiKeyMatchAt (buf : Buf) (i : Nat) : Option (Nat × (Nat × Nat)) :=
  if ciLitAt (strBytes ("api")) buf i then
    let j := i + 3
    let kwEnd : Option Nat :=
      match byteAt buf j with
      | some b =>
        if (b = 95 || b = 45) && ciLitAt (strBytes ("key")) buf (j + 1) then
          some (j + 4)
        else if ciLitAt (strBytes ("key")) buf j then some (j + 3)
        else none
      | none => none
    match kwEnd with
    | some p => sepGroupAssemble isKeyChar 16 buf p
    | none => none
  else none

/-- Matcher for the AWS pattern: literal AKIA (case-insensitive) then
exactly 16 alphanumeric bytes; the capture is the whole match. -/
def awsMatchAt (buf : Buf) (i : Nat) : Option (Nat × (Nat × Nat)) :=
  if ciLitAt (strBytes ("akia")) buf i then
    if 16 ≤ runLen isAlnumB buf (i + 4) then some (i + 20, (i, 20))
    else none
  else none

/-- Matcher for the MongoDB URI patterns: a case-insensitive literal
lead followed by one or more non-whitespace non-null bytes; the whole
match is the value (the patterns have no group). -/
def uriMatchAt (lead : List Nat) (buf : Buf) (i : Nat) :
    Option (Nat × (Nat × Nat)) :=
  if ciLitAt lead buf i then
    let r := runLen isNonWsNull buf (i + lead.length)
    if 1 ≤ r then some (i + lead.length + r, (i, lead.length + r))
    else none
  else none

/-- The patterns dict of CredentialHunter.analyze: categories in
declaration order, each with its matchers in declaration order. -/
def credPatterns : List (String × List (Buf → Nat → Option (Nat × (Nat × Nat)))) :=
  [ (("passwords"),
      [ kwSepGroupAt (strBytes ("password")) isNonWsNull 4
      , kwSepGroupAt (strBytes ("passwd")) isNonWsNull 4
      , kwSepGroupAt (strBytes ("pwd")) isNonWsNull 4 ])
  , (("usernames"),
      [ kwSepGroupAt (strBytes ("username")) isNonWsNull 3
      , kwSepGroupAt (strBytes ("user")) isNonWsNull 3
      , kwSepGroupAt (strBytes ("login")) isNonWsNull 3 ])
  , (("api_keys"),
      [ apiKeyMatchAt
      , kwSepGroupAt (strBytes ("apikey")) isKeyChar 16 ])
  , (("tokens"),
      [ kwSepGroupAt (strBytes ("token")) isTokChar 16
      , kwSepGroupAt (strBytes ("auth")) isTokChar 16 ])
  , (("secrets"),
      [ kwSepGroupAt (strBytes ("secret")) isKeyChar 8 ])
  , (("aws_keys"), [ awsMatchAt ])
  , (("mongodb_uris"),
      [ uriMatchAt (strBytes ("mongodb://"))
      , uriMatchAt (strBytes ("mongodb+srv://")) ]) ]

/-- Python str slicing s[:200]: first 200 characters. -/
def truncate200 (s : String) : String := String.mk (s.data.take 200)

/-- The literal keyword leads of a credential category's patterns:
every pattern of the category starts with one of these
case-insensitive literals, so a match of the category begins with one
of them. -/
def credLeadsFor (cat : String) : List (List Nat) :=
  if cat = ("passwords") then
    [strBytes ("password"), strBytes ("passwd"), strBytes ("pwd")]
  else if cat = ("usernames") then
    [strBytes ("username"), strBytes ("user"), strBytes ("login")]
  else if cat = ("api_keys") then [strBytes ("api"), strBytes ("apikey")]
  else if cat = ("tokens") then [strBytes ("token"), strBytes ("auth")]
  else if cat = ("secrets") then [strBytes ("secret")]
  else if cat = ("aws_keys") then [strBytes ("akia")]
  else if cat = ("mongodb_uris") then
    [strBytes ("mongodb://"), strBytes ("mongodb+srv://")]
  else []

namespace CredentialHunter

/-- Raw findings of one category: each of its patterns scanned to
completion over the buffer, results concatenated in pattern order; the
value is the captured bytes decoded with errors replace, truncated to
200 characters. -/
def rawFindings (buf : Buf)
    (pats : List (Buf → Nat → Option (Nat × (Nat × Nat)))) : List CredFinding :=
  pats.flatMap (fun m =>
    (reScan (m buf) buf).map (fun r =>
      { offset := r.1
        value := truncate200 (decodeReplace (slice buf r.2.1 r.2.2)) }))

/-- Per-category deduplication with a seen set, keeping the first
occurrence of each value (the second loop of the source). -/
def dedupSeen (seen : List String) : List CredFinding → List CredFinding
  | [] => []
  | f :: fs =>
    if f.value ∈ seen then dedupSeen seen fs
    else f :: dedupSeen (f.value :: seen) fs

/-- CredentialHunter.analyze: categories in declaration order, present
only when they collected at least one finding (defaultdict keys are
created on first append), each deduplicated preserving first-seen
order. -/
def analyze (buf : Buf) : List (String × List CredFinding) :=
  credPatterns.foldl (fun acc cp =>
    let raw := rawFindings buf cp.2
    if raw.isEmpty then acc else acc ++ [(cp.1, dedupSeen [] raw)]) []

end CredentialHunter

/-! ## JSON values and a model of json.loads

Python floats are outside the embedding; a numeric literal with a
fraction or exponent (and the NaN and Infinity literals json.loads
accepts) is kept as its raw text, while plain integer literals become
integers, as json.loads distinguishes int from float.  Object keys
follow dict semantics (a duplicate key overwrites in place). -/

/-- Parsed JSON value. -/
inductive JValue where
  | jnull : JValue
  | jbool : Bool → JValue
  | jint : Int → JValue
  | jfloatLit : String → JValue
  | jstr : String → JValue
  | jarr : List JValue → JValue
  | jobj : List (String × JValue) → JValue

/-- JSON whitespace accepted by json.loads. -/
def isJsonWs (c : Char) : Bool := c = ' ' || c = '\t' || c = '\n' || c = '\r'

/-- Skip JSON whitespace. -/
def skipWsC (cs : List Char) : List Char := cs.dropWhile isJsonWs

/-- Match a literal character sequence, returning the remainder. -/
def litChars : List Char → List Char → Option (List Char)
  | [], cs => some cs
  | l :: ls, c :: cs => if c = l then litChars ls cs else none
  | _ :: _, [] => none

/-- Value of a hexadecimal digit character. -/
def hexVal (c : Char) : Option Nat :=
  if '0' ≤ c && c ≤ '9' then some (c.toNat - 48)
  else if 'a' ≤ c && c ≤ 'f' then some (c.toNat - 87)
  else if 'A' ≤ c && c ≤ 'F' then some (c.toNat - 55)
  else none

/-- Four hexadecimal digits of a unicode escape. -/
def parseHex4 : List Char → Option (Nat × List Char)
  | c1 :: c2 :: c3 :: c4 :: rest => do
    let a ← hexVal c1
    let b ← hexVal c2
    let c ← hexVal c3
    let d ← hexVal c4
    pure (((a * 16 + b) * 16 + c) * 16 + d, rest)
  | _ => none

/-- Body of a JSON string after the opening quote, in strict mode:
raw control characters below 0x20 are rejected, escapes are the JSON
ones.  Returns the content and the remainder after the closing quote. -/
def parseStrBody : Nat → List Char → Option (List Char × List Char)
  | 0, _ => none
  | _, [] => none
  | fuel + 1, c :: rest =>
    if c = '"' then some ([], rest)
    else if c = '\\' then
      match rest with
      | [] => none
      | e :: rest' =>
        let simple : Option Char :=
          if e = '"' then some '"'
          else if e = '\\' then some '\\'
          else if e = '/' then some '/'
          else if e = 'b' then some (Char.ofNat 8)
          else if e = 'f' then some (Char.ofNat 12)
          else if e = 'n' then some '\n'
          else if e = 'r' then some '\r'
          else if e = 't' then some '\t'
          else none
        match simple with
        | some ch =>
          (parseStrBody fuel rest').map (fun p => (ch :: p.1, p.2))
        | none =>
          if e = 'u' then
            match parseHex4 rest' with
            | some (n, rest2) =>
              (parseStrBody fuel rest2).map (fun p => (Char.ofNat n :: p.1, p.2))
            | none => none
          else none
    else if c.toNat < 32 then none
    else (parseStrBody fuel rest).map (fun p => (c :: p.1, p.2))

/-- Decimal digit character. -/
def isDigitC (c : Char) : Bool := '0' ≤ c && c ≤ '9'

/-- Numeric value of a digit string. -/
def charsToNat (cs : List Char) : Nat :=
  cs.foldl (fun a c => a * 10 + (c.toNat - 48)) 0

/-- JSON number token per the json.loads number pattern: optional
minus, integer part 0 or nonzero-led digits, optional fraction,
optional exponent; yields an integer when fraction and exponent are
absent, otherwise the raw literal. -/
def parseNum (cs : List Char) : Option (JValue × List Char) :=
  let (negJ, cs1) :=
    match cs with
    | '-' :: r => (true, r)
    | _ => (false, cs)
  let intSpan : Option (List Char × List Char) :=
    match cs1 with
    | '0' :: r => some (['0'], r)
    | c :: r =>
      if isDigitC c && c ≠ '0' then
        some (c :: r.takeWhile isDigitC, r.dropWhile isDigitC)
      else none
    | [] => none
  match intSpan with
  | none => none
  | some (ip, cs2) =>
    let (fr, cs3) :=
      match cs2 with
      | '.' :: r =>
        if (r.takeWhile isDigitC) ≠ [] then
          ('.' :: r.takeWhile isDigitC, r.dropWhile isDigitC)
        else ([], cs2)
      | _ => ([], cs2)
    let (ex, cs4) :=
      match cs3 with
      | e :: r =>
        if e = 'e' || e = 'E' then
          let (sgn, r1) :=
            match r with
            | s :: r' => if s = '+' || s = '-' then ([s], r') else ([], r)
            | [] => ([], r)
          if (r1.takeWhile isDigitC) ≠ [] then
            (e :: (sgn ++ r1.takeWhile isDigitC), r1.dropWhile isDigitC)
          else ([], cs3)
        else ([], cs3)
      | [] => ([], cs3)
    if fr = [] && ex = [] then
      let v : Int := Int.ofNat (charsToNat ip)
      some (JValue.jint (if negJ then -v else v), cs2)
    else
      let txt := (if negJ then ['-'] else []) ++ ip ++ fr ++ ex
      some (JValue.jfloatLit (String.mk txt), cs4)

mutual

/-- One JSON value with leading whitespace, per json.loads. -/
def parseValue : Nat → List Char → Option (JValue × List Char)
  | 0, _ => none
  | fuel + 1, cs =>
    match skipWsC cs with
    | [] => none
    | c :: rest =>
      if c = '{' then
        match skipWsC rest with
        | '}' :: rest' => some (JValue.jobj [], rest')
        | cs' => parseMembers fuel [] cs'
      else if c = '[' then
        match skipWsC rest with
        | ']' :: rest' => some (JValue.jarr [], rest')
        | cs' => parseItems fuel [] cs'
      else if c = '"' then
        (parseStrBody rest.length rest).map
          (fun p => (JValue.jstr (String.mk p.1), p.2))
      else
        match litChars (("null").data) (c :: rest) with
        | some r => some (JValue.jnull, r)
        | none =>
          match litChars (("true").data) (c :: rest) with
          | some r => some (JValue.jbool true, r)
          | none =>
            match litChars (("false").data) (c :: rest) with
            | some r => some (JValue.jbool false, r)
            | none =>
              match parseNum (c :: rest) with
              | some p => some p
              | none =>
                match litChars (("NaN").data) (c :: rest) with
                | some r => some (JValue.jfloatLit ("NaN"), r)
                | none =>
                  match litChars (("Infinity").data) (c :: rest) with
                  | some r => some (JValue.jfloatLit ("Infinity"), r)
                  | none =>
                    match litChars (("-Infinity").data) (c :: rest) with
                    | some r => some (JValue.jfloatLit ("-Infinity"), r)
                    | none => none

/-- Object members, positioned at a key quote; duplicate keys
overwrite in place as in a Python dict. -/
def parseMembers : Nat → List (String × JValue) → List Char →
    Option (JValue × List Char)
  | 0, _, _ => none
  | fuel + 1, acc, cs =>
    match cs with
    | '"' :: rest =>
      match parseStrBody rest.length rest with
      | none => none
      | some (key, cs1) =>
        match skipWsC cs1 with
        | ':' :: cs2 =>
          match parseValue fuel cs2 with
          | none => none
          | some (v, cs3) =>
            let acc' := dictInsert acc (String.mk key) v
            match skipWsC cs3 with
            | ',' :: cs4 => parseMembers fuel acc' (skipWsC cs4)
            | '}' :: cs4 => some (JValue.jobj acc', cs4)
            | _ => none
        | _ => none
    | _ => none

/-- Array items. -/
def parseItems : Nat → List JValue → List Char → Option (JValue × List Char)
  | 0, _, _ => none
  | fuel + 1, acc, cs =>
    match parseValue fuel cs with
    | none => none
    | some (v, cs1) =>
      match skipWsC cs1 with
      | ',' :: cs2 => parseItems fuel (acc ++ [v]) cs2
      | ']' :: cs2 => some (JValue.jarr (acc ++ [v]), cs2)
      | _ => none

end

/-- Model of json.loads: parse one value, then only whitespace may
remain. -/
def jsonParse (s : String) : Option JValue :=
  match parseValue (s.data.length + 4) s.data with
  | some (v, rest) => if skipWsC rest = [] then some v else none
  | none => none

/-! ## JSON extractor (JSONExtractor)

Pattern rb of an opening brace, 10 to 500 non-null bytes, and a
closing brace.  The greedy middle takes the longest admissible span
whose next byte is a closing brace; parse failures drop the candidate
(the try block of the source) while the scan continues after the
match. -/

/-- One finding of the JSON extractor (offset, data). -/
structure JsonFinding where
  offset : Nat
  data : JValue

/-- Result dict of JSONExtractor.analyze. -/
structure JsonResult where
  findings : List JsonFinding

/-- Backtracking for the greedy middle: the largest k between 10 and
the given bound such that the byte after the k middle bytes is a
closing brace. -/
def jsonBacktrack (buf : Buf) (i : Nat) : Nat → Option Nat
  | 0 => none
  | k + 1 =>
    if k + 1 < 10 then none
    else if byteAt buf (i + 1 + (k + 1)) = some 125 then some (k + 1)
    else jsonBacktrack buf i k

/-- One-position matcher for the JSON candidate pattern; payload: the
candidate bytes (group 0). -/
def jsonCandidateAt (buf : Buf) (i : Nat) : Option (Nat × List Nat) :=
  if byteAt buf i = some 123 then
    let mMax := min (runLen (fun b => b ≠ 0) buf (i + 1)) 500
    (jsonBacktrack buf i mMax).map (fun k => (i + k + 2, slice buf i (k + 2)))
  else none

/-- All JSON candidate matches of the buffer. -/
def jsonCandidates (buf : Buf) : List (Nat × List Nat) :=
  reScan (jsonCandidateAt buf) buf

namespace JSONExtractor

/-- JSONExtractor.analyze: decode each candidate with errors ignore,
keep those json.loads accepts. -/
def analyze (buf : Buf) : JsonResult :=
  { findings := (jsonCandidates buf).filterMap (fun m =>
      (jsonParse (decodeIgnore m.2)).map (fun v => ⟨m.1, v⟩)) }

end JSONExtractor

/-! ## BSON field analyzer (BSONFieldAnalyzer)

Pattern rb capturing a letter-or-underscore byte followed by 1 to 50
identifier bytes, the whole immediately followed by a null byte.  The
greedy repeat cannot backtrack usefully (identifier bytes are never
null), so a match at i needs the null right after min(run, 50)
identifier bytes. -/

/-- First byte class of the captured identifier. -/
def isIdentStart (b : Nat) : Bool := isAlphaB b || b = 95

/-- Continuation byte class of the captured identifier: letters,
digits, underscore, dot. -/
def isIdentCont (b : Nat) : Bool :=
  isAlphaB b || isDigitB b || b = 95 || b = 46

/-- One field-name occurrence (offset, name). -/
structure BsonField where
  offset : Nat
  name : String
deriving DecidableEq

/-- Result dict of BSONFieldAnalyzer.analyze. -/
structure BsonResult where
  total_fields : Nat
  unique_fields : Nat
  top_fields : List (String × Nat)
  all_fields : List BsonField
deriving DecidableEq

/-- One-position matcher for the field-name pattern; payload: the
length of the identifier tail (so the name spans 1 + k bytes). -/
def bsonFieldAt (buf : Buf) (i : Nat) : Option (Nat × Nat) :=
  match byteAt buf i with
  | none => none
  | some b =>
    if isIdentStart b then
      let r := runLen isIdentCont buf (i + 1)
      if 1 ≤ r then
        let k := min r 50
        if byteAt buf (i + 1 + k) = some 0 then some (i + 1 + k + 1, k)
        else none
      else none
    else none

namespace BSONFieldAnalyzer

/-- All field-name occurrences, decoded with errors ignore. -/
def fieldNames (buf : Buf) : List BsonField :=
  (reScan (bsonFieldAt buf) buf).map (fun m =>
    { offset := m.1, name := decodeIgnore (slice buf m.1 (1 + m.2)) })

/-- BSONFieldAnalyzer.analyze: totals, Counter-based frequency table
with its top 50, and the first 1000 raw occurrences. -/
def analyze (buf : Buf) : BsonResult :=
  let fields := fieldNames buf
  let counts := counterOf (fields.map BsonField.name)
  { total_fields := fields.length
    unique_fields := counts.length
    top_fields := (sortDescByCount counts).take 50
    all_fields := fields.take 1000 }

end BSONFieldAnalyzer

/-! ## Email extractor (EmailExtractor) -/

/-- Result dict of the email and IP extractors: a sorted deduplicated
list of strings (no offsets are recorded by the source). -/
structure StrListResult where
  findings : List String
deriving DecidableEq

/-- Local-part byte class. -/
def isLocalChar (b : Nat) : Bool :=
  isAlnumB b || b = 46 || b = 95 || b = 37 || b = 43 || b = 45

/-- Domain byte class. -/
def isDomChar (b : Nat) : Bool := isAlnumB b || b = 46 || b = 45

/-- Backtracking for the domain split: the largest k such that after k
domain bytes there is a dot followed by at least two letters; returns
(k, letter-run length). -/
def emailBacktrack (buf : Buf) (p : Nat) : Nat → Option (Nat × Nat)
  | 0 => none
  | k + 1 =>
    if byteAt buf (p + (k + 1)) = some 46 then
      let a := runLen isAlphaB buf (p + (k + 1) + 1)
      if 2 ≤ a then some (k + 1, a) else emailBacktrack buf p k
    else emailBacktrack buf p k

/-- One-position matcher for the email pattern; payload: match length. -/
def emailMatchAt (buf : Buf) (i : Nat) : Option (Nat × Nat) :=
  let l := runLen isLocalChar buf i
  if 1 ≤ l then
    if byteAt buf (i + l) = some 64 then
      let p := i + l + 1
      let d := runLen isDomChar buf p
      if 1 ≤ d then
        match emailBacktrack buf p d with
        | some (k, a) => some (p + k + 1 + a, p + k + 1 + a - i)
        | none => none
      else none
    else none
  else none

namespace EmailExtractor

/-- EmailExtractor.analyze: match values decoded with errors ignore,
collected in a set and sorted. -/
def analyze (buf : Buf) : StrListResult :=
  { findings := sortedDedup ((reScan (emailMatchAt buf) buf).map (fun m =>
      decodeIgnore (slice buf m.1 m.2))) }

end EmailExtractor

/-! ## IP address extractor (IPAddressExtractor)

Dotted-quad pattern between word boundaries; each matched candidate is
decoded strictly (the source passes no errors argument), split on
dots, its components parsed as integers and checked against 255. -/

/-- Word boundary before index i with a word character at i (the
leading boundary of the pattern, given the first byte is a digit). -/
def atWordStart (buf : Buf) : Nat → Bool
  | 0 => true
  | j + 1 =>
    match byteAt buf j with
    | some b => !isWordB b
    | none => true

/-- One-position matcher for the dotted-quad pattern; payload: the
matched bytes assembled from the four digit runs and the dots.  A run
of more than three digits fails the component (backtracking inside the
bounded repeat cannot help, as shorter prefixes are followed by a
digit, not a dot), and the final boundary demands a non-word byte or
the end of the buffer. -/
def ipMatchAt (buf : Buf) (i : Nat) : Option (Nat × List Nat) :=
  if atWordStart buf i then
    let r1 := runLen isDigitB buf i
    if 1 ≤ r1 && r1 ≤ 3 && (byteAt buf (i + r1) = some 46) then
      let p2 := i + r1 + 1
      let r2 := runLen isDigitB buf p2
      if 1 ≤ r2 && r2 ≤ 3 && (byteAt buf (p2 + r2) = some 46) then
        let p3 := p2 + r2 + 1
        let r3 := runLen isDigitB buf p3
        if 1 ≤ r3 && r3 ≤ 3 && (byteAt buf (p3 + r3) = some 46) then
          let p4 := p3 + r3 + 1
          let r4 := runLen isDigitB buf p4
          let endOk :=
            match byteAt buf (p4 + r4) with
            | some b => !isWordB b
            | none => true
          if 1 ≤ r4 && r4 ≤ 3 && endOk then
            some (p4 + r4,
              slice buf i r1 ++ [46] ++ slice buf p2 r2 ++ [46] ++
                slice buf p3 r3 ++ [46] ++ slice buf p4 r4)
          else none
        else none
      else none
    else none
  else none

/-- Split a character list at dots (Python str.split with a dot). -/
def splitDot : List Char → List (List Char)
  | [] => [[]]
  | c :: cs =>
    if c = '.' then [] :: splitDot cs
    else
      match splitDot cs with
      | g :: gs => (c :: g) :: gs
      | [] => [[c]]

/-- Model of Python int() on the decoded components: a nonempty digit
string parses, anything else raises. -/
def strToNatE (s : String) : Except String Nat :=
  if s.data ≠ [] && s.data.all isDigitC then Except.ok (charsToNat s.data)
  else Except.error ("ValueError")

/-- The generator expression all(0 <= int(p) <= 255 for p in parts):
parses each component in turn (a parse failure raises) and
short-circuits on the first component above 255; the lower bound
always holds for a parsed digit string. -/
def validQuad : List String → Except String Bool
  | [] => Except.ok true
  | p :: ps => do
    let n ← strToNatE p
    if n ≤ 255 then validQuad ps else pure false

namespace IPAddressExtractor

/-- IPAddressExtractor.analyze with its fallible steps explicit: the
strict decode and the integer parses may fail, and no handler exists
in the source, so a failure would escape the analyzer. -/
def analyzeE (buf : Buf) : Except String StrListResult := do
  let ms := reScan (ipMatchAt buf) buf
  let valid ← ms.foldlM (fun (acc : List String) m => do
      let ip ← utf8DecodeStrict m.2
      let allOk ← validQuad ((splitDot ip.data).map String.mk)
      pure (if allOk then acc ++ [ip] else acc)) []
  pure { findings := sortedDedup valid }

end IPAddressExtractor

/-! ## Layout analyzer (HexDumpAnalyzer)

Python floats of the percentage fields are modelled as exact
rationals; the repeated-pattern loop runs over range(0, len - 4, 4),
so chunk starts stop strictly before len - 4. -/

/-- Result dict of HexDumpAnalyzer.analyze. -/
structure HexResult where
  total_size : Nat
  null_bytes : Nat
  null_percentage : ℚ
  printable_bytes : Nat
  printable_percentage : ℚ
  top_patterns : List (String × Nat)

/-- Chunk start offsets of the pattern loop: Python
range(0, len - 4, 4). -/
def hexChunkStarts (len : Nat) : List Nat :=
  (List.range ((len - 4 + 3) / 4)).map (· * 4)

/-- Lower-case hexadecimal digit. -/
def hexDigit (n : Nat) : Char :=
  if n < 10 then Char.ofNat (48 + n) else Char.ofNat (87 + n)

/-- Python bytes.hex(): two lower-case digits per byte. -/
def hexOfBytes (bs : List Nat) : String :=
  String.mk (bs.flatMap (fun b => [hexDigit (b / 16), hexDigit (b % 16)]))

namespace HexDumpAnalyzer

/-- The 4-byte chunks counted by the pattern loop. -/
def chunks (buf : Buf) : List Buf :=
  (hexChunkStarts buf.length).map (fun i => slice buf i 4)

/-- HexDumpAnalyzer.analyze. -/
def analyze (buf : Buf) : HexResult :=
  let total := buf.length
  let nulls := buf.count 0
  let printable := buf.countP isPrintable
  { total_size := total
    null_bytes := nulls
    null_percentage := if 0 < total then (nulls : ℚ) / total * 100 else 0
    printable_bytes := printable
    printable_percentage :=
      if 0 < total then (printable : ℚ) / total * 100 else 0
    top_patterns := ((sortDescByCount (counterOf (chunks buf))).take 10).map
      (fun pc => (hexOfBytes pc.1, pc.2)) }

end HexDumpAnalyzer

/-! ## Result aggregator (HTMLReportGenerator)

Analyzers are registered in order; analyze_all runs each in turn over
the same buffer, storing under the analyzer name either its result or,
when the analyzer raises, an error record holding the message — the
loop itself never aborts.  The results dict persists on the generator,
so a second run re-inserts over the first.  Modelled generically over
the result type, with Except.error as the error record. -/

/-- A registered analyzer: name and a possibly failing analyze. -/
structure Analyzer (α : Type) where
  name : String
  analyze : Buf → Except String α

/-- HTMLReportGenerator.analyze_all starting from an existing results
dict: one pass over the analyzers in registration order. -/
def analyzeAllFrom {α : Type} (d : List (String × Except String α))
    (as : List (Analyzer α)) (buf : Buf) : List (String × Except String α) :=
  as.foldl (fun d a => dictInsert d a.name (a.analyze buf)) d

/-- A fresh generator run: empty results dict, then analyze_all. -/
def analyzeAll {α : Type} (as : List (Analyzer α)) (buf : Buf) :
    List (String × Except String α) :=
  analyzeAllFrom [] as buf

/-- Keys of a results dict, in order. -/
def dictKeys {β : Type} (d : List (String × β)) : List String :=
  d.map Prod.fst

/-- Last assignment an analyzer list would make to a name (the value
that survives in the dict). -/
def finalFor {α : Type} (as : List (Analyzer α)) (k : String) (buf : Buf) :
    Option (Except String α) :=
  as.foldl (fun acc a => if a.name = k then some (a.analyze buf) else acc) none

/-! ## Fallibility wrappers

Each analyze body, translated with its possibly raising operations
made explicit.  Only IPAddressExtractor contains a fallible operation
outside a try block (the strict decode and int parses, already modelled
in analyzeE); the six other bodies contain no raising operation —
their decodes pass an errors argument and the one json.loads call sits
inside try/except — so their translations are pure. -/

/-- StringExtractor.analyze, fallibility made explicit. -/
def StringExtractor.analyzeE (buf : Buf) : Except String StringResult :=
  Except.ok (StringExtractor.analyze buf)

/-- CredentialHunter.analyze, fallibility made explicit. -/
def CredentialHunter.analyzeE (buf : Buf) :
    Except String (List (String × List CredFinding)) :=
  Except.ok (CredentialHunter.analyze buf)

/-- JSONExtractor.analyze, fallibility made explicit: the json.loads
failures are consumed per candidate by the try block. -/
def JSONExtractor.analyzeE (buf : Buf) : Except String JsonResult :=
  Except.ok (JSONExtractor.analyze buf)

/-- BSONFieldAnalyzer.analyze, fallibility made explicit. -/
def BSONFieldAnalyzer.analyzeE (buf : Buf) : Except String BsonResult :=
  Except.ok (BSONFieldAnalyzer.analyze buf)

/-- EmailExtractor.analyze, fallibility made explicit. -/
def EmailExtractor.analyzeE (buf : Buf) : Except String StrListResult :=
  Except.ok (EmailExtractor.analyze buf)

/-- HexDumpAnalyzer.analyze, fallibility made explicit. -/
def HexDumpAnalyzer.analyzeE (buf : Buf) : Except String HexResult :=
  Except.ok (HexDumpAnalyzer.analyze buf)

/-! ## Serialized shapes of findings

The dicts and lists the analyzers store, as JSON values, for claims
about the shape of findings (which keys a finding carries). -/

/-- Dict shape of a string-extractor finding. -/
def strFindingJson (f : StrFinding) : JValue :=
  JValue.jobj
    [ (("offset"), JValue.jint f.offset)
    , (("length"), JValue.jint f.length)
    , (("content"), JValue.jstr f.content) ]

/-- Dict shape of a credential finding. -/
def credFindingJson (f : CredFinding) : JValue :=
  JValue.jobj
    [ (("offset"), JValue.jint f.offset)
    , (("value"), JValue.jstr f.value) ]

/-- Dict shape of a BSON field occurrence. -/
def bsonFieldJson (f : BsonField) : JValue :=
  JValue.jobj
    [ (("offset"), JValue.jint f.offset)
    , (("name"), JValue.jstr f.name) ]

/-- Dict shape of a JSON-extractor finding. -/
def jsonFindingJson (f : JsonFinding) : JValue :=
  JValue.jobj
    [ (("offset"), JValue.jint f.offset)
    , (("data"), f.data) ]

/-- Shape of the email findings as stored: bare strings. -/
def emailFindingsJson (buf : Buf) : List JValue :=
  (EmailExtractor.analyze buf).findings.map JValue.jstr

/-- Shape of the IP findings as stored: bare strings. -/
def ipFindingsJson (r : StrListResult) : List JValue :=
  r.findings.map JValue.jstr

/-- Whether a serialized finding carries an offset key holding a
non-negative integer. -/
def hasOffsetField : JValue → Bool
  | JValue.jobj fields =>
    fields.any (fun kv =>
      kv.1 = ("offset") &&
        match kv.2 with
        | JValue.jint n => 0 ≤ n
        | _ => false)
  | _ => false

/-- Modelled from the claim text of C5 (not from the source): a
candidate identifier token of letters, digits, underscores and dots,
of length 2 to 51, that is immediately followed by a null byte. -/
def specClaimTokenAt (buf : Buf) (i len : Nat) : Bool :=
  2 ≤ len && len ≤ 51 && (slice buf i len).length = len &&
    (slice buf i len).all (fun b => isAlphaB b || isDigitB b || b = 95 || b = 46) &&
    byteAt buf (i + len) = some 0

/-! ## Concrete buffers used by witnesses and counterexamples -/

/-- Bytes of the credential test vector of the specification. -/
def demoCredBuf : Buf := strBytes ("password: secret123 password: secret123")

/-- Buffer with one email-shaped token. -/
def demoEmailBuf : Buf := strBytes ("a@b.cc")

/-- Buffer whose only JSON candidate contains one invalid byte 0xFF.
Under decode with errors ignore the candidate parses; under errors
replace it does not. -/
def demoJsonBuf : Buf := [123] ++ strBytes ("\"aaaaaaa\":1") ++ [255, 125]

/-- Buffer with one dotted quad. -/
def demoIpBuf : Buf := strBytes ("ip 10.0.0.1 end")

/-- Buffer with one null-terminated field name. -/
def demoBsonBuf : Buf := strBytes ("name") ++ [0]

/-- Buffer for the C5 counterexample: the token 1a is followed by a
null byte and satisfies the claim's token condition, but the source
pattern demands a letter or underscore first. -/
def demoC5Buf : Buf := [49, 97, 0]

/-- Four-byte buffer for the C4 counterexample: its single aligned
chunk is never counted because the loop stops at len - 4. -/
def demoC4Buf : Buf := [1, 1, 1, 1]

/-! ## Lemmas: runs, slices and the scan driver -/

theorem runLenL_le (p : Nat → Bool) : ∀ l : List Nat, runLenL p l ≤ l.length := by
  intro l
  induction l with
  | nil => simp [runLenL]
  | cons b bs ih =>
    simp only [runLenL]
    split
    · simpa using ih
    · simp

theorem runLenL_take (p : Nat → Bool) :
    ∀ (l : List Nat) (k : Nat), k ≤ runLenL p l → ∀ b ∈ l.take k, p b := by
  intro l
  induction l with
  | nil => intro k _ b hb; simp at hb
  | cons x xs ih =>
    intro k hk b hb
    cases k with
    | zero => simp at hb
    | succ k' =>
      simp only [runLenL] at hk
      by_cases hx : p x
      · rw [if_pos hx] at hk
        rcases List.mem_cons.mp (by simpa using hb) with h1 | h2
        · subst h1; exact hx
        · exact ih k' (by omega) b h2
      · rw [if_neg hx] at hk; omega

theorem runLenL_head (p : Nat → Bool) :
    ∀ l : List Nat, 1 ≤ runLenL p l → ∃ b bs, l = b :: bs ∧ p b := by
  intro l hl
  cases l with
  | nil => simp [runLenL] at hl
  | cons x xs =>
    refine ⟨x, xs, rfl, ?_⟩
    simp only [runLenL] at hl
    by_cases hx : p x
    · exact hx
    · rw [if_neg hx] at hl; omega

theorem slice_all (p : Nat → Bool) (buf : Buf) (i k : Nat)
    (h : k ≤ runLen p buf i) : ∀ b ∈ slice buf i k, p b := by
  intro b hb
  exact runLenL_take p (buf.drop i) k h b hb

theorem slice_length_of_run (p : Nat → Bool) (buf : Buf) (i k : Nat)
    (h : k ≤ runLen p buf i) : (slice buf i k).length = k := by
  have h1 : k ≤ (buf.drop i).length := le_trans h (runLenL_le p _)
  simp only [List.length_drop] at h1
  simp [slice, List.length_take, List.length_drop]
  omega

theorem byteAt_of_run (p : Nat → Bool) (buf : Buf) (i : Nat)
    (h : 1 ≤ runLen p buf i) : ∃ b, byteAt buf i = some b ∧ p b := by
  rcases runLenL_head p (buf.drop i) h with ⟨b, bs, heq, hp⟩
  refine ⟨b, ?_, hp⟩
  have : (buf.drop i)[0]? = some b := by rw [heq]; simp
  rw [List.getElem?_drop] at this
  simpa [byteAt] using this

theorem reScanAux_post {α : Type} {tryAt : Nat → Option (Nat × α)}
    {P : Nat → α → Prop} (h : ∀ i e a, tryAt i = some (e, a) → P i a)
    (len : Nat) :
    ∀ (fuel i : Nat), ∀ m ∈ reScanAux tryAt len fuel i, P m.1 m.2 := by
  intro fuel
  induction fuel with
  | zero => intro i m hm; simp [reScanAux] at hm
  | succ f ih =>
    intro i m hm
    unfold reScanAux at hm
    split at hm
    · simp at hm
    · cases hcase : tryAt i with
      | none => rw [hcase] at hm; exact ih _ _ hm
      | some ea =>
        rcases ea with ⟨e, a⟩
        rw [hcase] at hm
        rcases List.mem_cons.mp hm with h1 | h2
        · subst h1; exact h _ _ _ hcase
        · exact ih _ _ h2

theorem reScan_post {α : Type} {tryAt : Nat → Option (Nat × α)}
    {P : Nat → α → Prop} (h : ∀ i e a, tryAt i = some (e, a) → P i a)
    (buf : Buf) : ∀ m ∈ reScan tryAt buf, P m.1 m.2 := by
  intro m hm
  exact reScanAux_post h buf.length _ _ m hm

/-! ## Lemmas: dict and aggregator -/

theorem dictInsert_not_mem {β : Type} (d : List (String × β)) (k : String)
    (v : β) (h : k ∉ dictKeys d) : dictInsert d k v = d ++ [(k, v)] := by
  induction d with
  | nil => rfl
  | cons kv rest ih =>
    simp only [dictKeys, List.map_cons, List.mem_cons] at h
    push_neg at h
    simp only [dictInsert, if_neg (Ne.symm h.1), List.cons_append]
    rw [ih (by simpa [dictKeys] using h.2)]

theorem dictKeys_insert_mem {β : Type} (d : List (String × β)) (k : String)
    (v : β) (h : k ∈ dictKeys d) : dictKeys (dictInsert d k v) = dictKeys d := by
  induction d with
  | nil => simp [dictKeys] at h
  | cons kv rest ih =>
    by_cases hk : kv.1 = k
    · simp [dictInsert, hk, dictKeys]
    · simp only [dictKeys, List.map_cons, List.mem_cons] at h
      rcases h with h1 | h2
      · exact absurd h1.symm hk
      · have h3 := ih h2
        simp only [dictKeys] at h3
        simp [dictInsert, hk, dictKeys, h3]

theorem dictLookup_insert_self {β : Type} (d : List (String × β)) (k : String)
    (v : β) : dictLookup (dictInsert d k v) k = some v := by
  induction d with
  | nil => simp [dictInsert, dictLookup]
  | cons kv rest ih =>
    by_cases hk : kv.1 = k
    · simp [dictInsert, hk, dictLookup]
    · simp [dictInsert, hk, dictLookup, ih]

theorem dictLookup_insert_other {β : Type} (d : List (String × β))
    (k v k' : _) (h : k' ≠ k) :
    dictLookup (dictInsert d k (v : β)) k' = dictLookup d k' := by
  induction d with
  | nil => simp [dictInsert, dictLookup, Ne.symm h]
  | cons kv rest ih =>
    by_cases hk : kv.1 = k
    · subst hk
      simp [dictInsert, dictLookup, Ne.symm h]
    · by_cases hk' : kv.1 = k'
      · simp [dictInsert, hk, dictLookup, hk', h]
      · simp [dictInsert, hk, dictLookup, hk', ih]

theorem dictLookup_none {β : Type} (d : List (String × β)) (k : String)
    (h : k ∉ dictKeys d) : dictLookup d k = none := by
  induction d with
  | nil => rfl
  | cons kv rest ih =>
    simp only [dictKeys, List.map_cons, List.mem_cons] at h
    push_neg at h
    simp [dictLookup, Ne.symm h.1, ih (by simpa [dictKeys] using h.2)]

theorem mem_keys_of_lookup {β : Type} (d : List (String × β)) (k : String)
    (v : β) (h : dictLookup d k = some v) : k ∈ dictKeys d := by
  by_contra hk
  rw [dictLookup_none d k hk] at h
  exact Option.noConfusion h

theorem dictInsert_nodup {β : Type} (d : List (String × β)) (k : String)
    (v : β) (h : (dictKeys d).Nodup) : (dictKeys (dictInsert d k v)).Nodup := by
  by_cases hk : k ∈ dictKeys d
  · rw [dictKeys_insert_mem d k v hk]; exact h
  · rw [dictInsert_not_mem d k v hk]
    simp only [dictKeys, List.map_append, List.map_cons, List.map_nil]
    rw [List.nodup_append]
    refine ⟨h, by simp, ?_⟩
    intro x hx
    simp only [List.mem_singleton]
    intro hxk
    exact hk (hxk ▸ hx)

theorem analyzeAllFrom_cons {α : Type} (d : List (String × Except String α))
    (a : Analyzer α) (as : List (Analyzer α)) (buf : Buf) :
    analyzeAllFrom d (a :: as) buf =
      analyzeAllFrom (dictInsert d a.name (a.analyze buf)) as buf := rfl

theorem finalFor_foldl {α : Type} (k : String) (buf : Buf) :
    ∀ (as : List (Analyzer α)) (init : Option (Except String α)),
      as.foldl (fun acc a => if a.name = k then some (a.analyze buf) else acc)
          init =
        match finalFor as k buf with
        | some w => some w
        | none => init := by
  intro as
  induction as with
  | nil => intro init; simp [finalFor]
  | cons a as ih =>
    intro init
    have hL : (a :: as).foldl
        (fun acc b => if b.name = k then some (b.analyze buf) else acc) init =
        as.foldl (fun acc b => if b.name = k then some (b.analyze buf) else acc)
          (if a.name = k then some (a.analyze buf) else init) := rfl
    have hF : finalFor (a :: as) k buf =
        as.foldl (fun acc b => if b.name = k then some (b.analyze buf) else acc)
          (if a.name = k then some (a.analyze buf) else none) := rfl
    rw [hL, hF, ih, ih]
    cases hfin : finalFor as k buf with
    | some w => simp
    | none => by_cases hk : a.name = k <;> simp [hk]

theorem lookup_analyzeAllFrom {α : Type} (buf : Buf) (k : String) :
    ∀ (as : List (Analyzer α)) (d : List (String × Except String α)),
      dictLookup (analyzeAllFrom d as buf) k =
        match finalFor as k buf with
        | some w => some w
        | none => dictLookup d k := by
  intro as
  induction as with
  | nil => intro d; simp [analyzeAllFrom, finalFor]
  | cons a as ih =>
    intro d
    rw [analyzeAllFrom_cons, ih]
    have hF : finalFor (a :: as) k buf =
        as.foldl (fun acc b => if b.name = k then some (b.analyze buf) else acc)
          (if a.name = k then some (a.analyze buf) else none) := rfl
    rw [hF, finalFor_foldl]
    cases hfin : finalFor as k buf with
    | some w => simp
    | none =>
      by_cases hk : a.name = k
      · subst hk
        simp [dictLookup_insert_self]
      · simp only [if_neg hk]
        exact dictLookup_insert_other d a.name (a.analyze buf) k
          (fun h => hk h.symm)

theorem finalFor_of_mem {α : Type} (buf : Buf) :
    ∀ (as : List (Analyzer α)) (a : Analyzer α), a ∈ as →
      ∃ w, finalFor as a.name buf = some w := by
  intro as
  induction as with
  | nil => intro a ha; simp at ha
  | cons b bs ih =>
    intro a ha
    have hF : finalFor (b :: bs) a.name buf =
        bs.foldl
          (fun acc c => if c.name = a.name then some (c.analyze buf) else acc)
          (if b.name = a.name then some (b.analyze buf) else none) := rfl
    rw [hF, finalFor_foldl]
    rcases List.mem_cons.mp ha with h1 | h2
    · subst h1
      cases hfin : finalFor bs a.name buf with
      | some w => exact ⟨w, rfl⟩
      | none => exact ⟨a.analyze buf, by simp⟩
    · rcases ih a h2 with ⟨w, hw⟩
      rw [hw]
      exact ⟨w, rfl⟩

theorem keys_analyzeAllFrom_sub {α : Type} (buf : Buf) :
    ∀ (as : List (Analyzer α)) (d : List (String × Except String α)),
      (∀ a ∈ as, a.name ∈ dictKeys d) →
      dictKeys (analyzeAllFrom d as buf) = dictKeys d := by
  intro as
  induction as with
  | nil => intro d _; rfl
  | cons a as ih =>
    intro d h
    rw [analyzeAllFrom_cons]
    have hmem : a.name ∈ dictKeys d := h a (List.mem_cons_self a as)
    rw [ih _ (fun b hb => by
      rw [dictKeys_insert_mem d a.name (a.analyze buf) hmem]
      exact h b (List.mem_cons_of_mem a hb))]
    exact dictKeys_insert_mem d a.name (a.analyze buf) hmem

theorem nodup_keys_analyzeAllFrom {α : Type} (buf : Buf) :
    ∀ (as : List (Analyzer α)) (d : List (String × Except String α)),
      (dictKeys d).Nodup → (dictKeys (analyzeAllFrom d as buf)).Nodup := by
  intro as
  induction as with
  | nil => intro d h; exact h
  | cons a as ih =>
    intro d h
    rw [analyzeAllFrom_cons]
    exact ih _ (dictInsert_nodup d a.name (a.analyze buf) h)

theorem dict_ext {β : Type} :
    ∀ (d1 d2 : List (String × β)), (dictKeys d1).Nodup →
      dictKeys d1 = dictKeys d2 →
      (∀ k, dictLookup d1 k = dictLookup d2 k) → d1 = d2 := by
  intro d1
  induction d1 with
  | nil =>
    intro d2 _ hkeys _
    cases d2 with
    | nil => rfl
    | cons kv rest => simp [dictKeys] at hkeys
  | cons kv rest ih =>
    intro d2 hnd hkeys hlook
    cases d2 with
    | nil => simp [dictKeys] at hkeys
    | cons kv2 rest2 =>
      simp only [dictKeys, List.map_cons, List.cons.injEq] at hkeys
      have hk : kv.1 = kv2.1 := hkeys.1
      have hv : kv.2 = kv2.2 := by
        have h1 := hlook kv.1
        simp [dictLookup, hk.symm] at h1
        exact h1
      simp only [dictKeys, List.map_cons, List.nodup_cons] at hnd
      have htail : rest = rest2 := by
        refine ih rest2 hnd.2 hkeys.2 ?_
        intro k
        by_cases hkk : k = kv.1
        · have hn2 : kv.1 ∉ dictKeys rest2 := by
            have h5 := hnd.1
            simp only [dictKeys]
            rw [← hkeys.2]
            exact h5
          rw [hkk, dictLookup_none rest kv.1 hnd.1,
            dictLookup_none rest2 kv.1 hn2]
        · have h1 := hlook k
          simp only [dictLookup] at h1
          rw [if_neg (fun h => hkk h.symm), if_neg (fun h => hkk (hk ▸ h.symm))] at h1
          exact h1
      have hpair : kv = kv2 := Prod.ext hk hv
      rw [hpair, htail]

theorem finalFor_none {α : Type} (buf : Buf) :
    ∀ (as : List (Analyzer α)) (k : String), k ∉ as.map Analyzer.name →
      finalFor as k buf = none := by
  intro as
  induction as with
  | nil => intro k _; rfl
  | cons a as ih =>
    intro k hk
    simp only [List.map_cons, List.mem_cons] at hk
    push_neg at hk
    have hF : finalFor (a :: as) k buf =
        as.foldl (fun acc b => if b.name = k then some (b.analyze buf) else acc)
          (if a.name = k then some (a.analyze buf) else none) := rfl
    rw [hF, finalFor_foldl, ih k hk.2]
    have hne : ¬a.name = k := fun h => hk.1 h.symm
    simp [hne]

theorem finalFor_nodup {α : Type} (buf : Buf) :
    ∀ (as : List (Analyzer α)) (b : Analyzer α),
      (as.map Analyzer.name).Nodup → b ∈ as →
      finalFor as b.name buf = some (b.analyze buf) := by
  intro as
  induction as with
  | nil => intro b _ hb; simp at hb
  | cons a as ih =>
    intro b hnd hb
    simp only [List.map_cons, List.nodup_cons] at hnd
    have hF : finalFor (a :: as) b.name buf =
        as.foldl
          (fun acc c => if c.name = b.name then some (c.analyze buf) else acc)
          (if a.name = b.name then some (a.analyze buf) else none) := rfl
    rw [hF, finalFor_foldl]
    rcases List.mem_cons.mp hb with h1 | h2
    · subst h1
      rw [finalFor_none buf as b.name hnd.1]
      simp
    · rw [ih b hnd.2 h2]

theorem keys_analyzeAllFrom_fresh {α : Type} (buf : Buf) :
    ∀ (as : List (Analyzer α)) (d : List (String × Except String α)),
      (as.map Analyzer.name).Nodup → (∀ a ∈ as, a.name ∉ dictKeys d) →
      dictKeys (analyzeAllFrom d as buf) = dictKeys d ++ as.map Analyzer.name := by
  intro as
  induction as with
  | nil => intro d _ _; simp [analyzeAllFrom]
  | cons a as ih =>
    intro d hnd hfresh
    simp only [List.map_cons, List.nodup_cons] at hnd
    rw [analyzeAllFrom_cons,
      dictInsert_not_mem d a.name (a.analyze buf)
        (hfresh a (List.mem_cons_self a as))]
    have hfresh2 : ∀ b ∈ as, b.name ∉ dictKeys (d ++ [(a.name, a.analyze buf)]) := by
      intro b hb
      simp only [dictKeys, List.map_append, List.map_cons, List.map_nil,
        List.mem_append, List.mem_singleton]
      push_neg
      refine ⟨?_, ?_⟩
      · exact fun h => hfresh b (List.mem_cons_of_mem a hb) h
      · intro hbn
        exact hnd.1 (hbn ▸ List.mem_map_of_mem Analyzer.name hb)
    rw [ih _ hnd.2 hfresh2]
    simp [dictKeys]

theorem lookup_analyzeAll_mem {α : Type} (buf : Buf) (as : List (Analyzer α))
    (b : Analyzer α) (hnd : (as.map Analyzer.name).Nodup) (hb : b ∈ as) :
    dictLookup (analyzeAll as buf) b.name = some (b.analyze buf) := by
  rw [analyzeAll, lookup_analyzeAllFrom, finalFor_nodup buf as b hnd hb]

/-- Claim C1: if one registered analyzer raises during the run, the
aggregator records the error record holding its message under that
analyzer's name, every registered analyzer still receives its own
entry, and the run produces an entry for every analyzer (it never
aborts).  Names are assumed distinct per the data model of the
ResultSet. -/
theorem claim1_error_isolation {α : Type} (buf : Buf) (as : List (Analyzer α))
    (a : Analyzer α) (msg : String)
    (hnd : (as.map Analyzer.name).Nodup) (ha : a ∈ as)
    (herr : a.analyze buf = Except.error msg) :
    dictLookup (analyzeAll as buf) a.name = some (Except.error msg) ∧
      (∀ b ∈ as, dictLookup (analyzeAll as buf) b.name = some (b.analyze buf)) ∧
      (analyzeAll as buf).length = as.length := by
  refine ⟨?_, ?_, ?_⟩
  · rw [lookup_analyzeAll_mem buf as a hnd ha, herr]
  · intro b hb
    exact lookup_analyzeAll_mem buf as b hnd hb
  · have hk := keys_analyzeAllFrom_fresh buf as [] hnd (by simp [dictKeys])
    have h1 : (dictKeys (analyzeAll as buf)).length = (as.map Analyzer.name).length := by
      rw [analyzeAll, hk]; simp [dictKeys]
    simpa [dictKeys] using h1

/-- Closed instance of claim C1 at a two-analyzer run in which the
first analyzer raises. -/
theorem claim1_error_isolation_witness :
    dictLookup
        (analyzeAll
          [⟨("boom"), fun _ => Except.error ("fail")⟩,
            ⟨("fine"), fun _ => Except.ok 7⟩] []) ("boom") =
      some (Except.error ("fail")) ∧
      dictLookup
          (analyzeAll
            [⟨("boom"), fun _ => Except.error ("fail")⟩,
              ⟨("fine"), fun _ => Except.ok 7⟩] []) ("fine") =
        some (Except.ok 7) ∧
      (analyzeAll
          [⟨("boom"), fun _ => Except.error ("fail")⟩,
            ⟨("fine"), fun _ => Except.ok (7 : Nat)⟩] []).length = 2 := by
  have h := claim1_error_isolation (α := Nat) []
    [⟨("boom"), fun _ => Except.error ("fail")⟩,
      ⟨("fine"), fun _ => Except.ok 7⟩]
    ⟨("boom"), fun _ => Except.error ("fail")⟩ ("fail")
    (by decide) (List.mem_cons_self _ _) rfl
  refine ⟨h.1, ?_, h.2.2⟩
  exact h.2.1 ⟨("fine"), fun _ => Except.ok 7⟩
    (List.mem_cons_of_mem _ (List.mem_cons_self _ _))

/-- Claim C8: with distinct analyzer names, the result dict has
exactly one entry per registered analyzer and its key order is the
registration order. -/
theorem claim8_resultset_order {α : Type} (buf : Buf) (as : List (Analyzer α))
    (hnd : (as.map Analyzer.name).Nodup) :
    dictKeys (analyzeAll as buf) = as.map Analyzer.name := by
  have hk := keys_analyzeAllFrom_fresh buf as [] hnd (by simp [dictKeys])
  rw [analyzeAll, hk]
  simp [dictKeys]

/-- Closed instance of claim C8 at a two-analyzer run. -/
theorem claim8_resultset_order_witness :
    dictKeys
        (analyzeAll
          [⟨("first"), fun _ => Except.ok (0 : Nat)⟩,
            ⟨("second"), fun _ => Except.ok 1⟩] [5]) =
      [("first"), ("second")] := by
  exact claim8_resultset_order [5]
    [⟨("first"), fun _ => Except.ok 0⟩, ⟨("second"), fun _ => Except.ok 1⟩]
    (by decide)

/-- Claim C9: the analyzers are pure functions of the buffer, and a
second analyze_all pass over the results dict of the first reproduces
that dict exactly — re-running on the same buffer yields identical
ResultSet content. -/
theorem claim9_two_run_determinism {α : Type} (as : List (Analyzer α))
    (buf : Buf) :
    analyzeAllFrom (analyzeAll as buf) as buf = analyzeAll as buf := by
  have hmem : ∀ a ∈ as, a.name ∈ dictKeys (analyzeAll as buf) := by
    intro a ha
    rcases finalFor_of_mem buf as a ha with ⟨w, hw⟩
    refine mem_keys_of_lookup _ _ w ?_
    rw [analyzeAll, lookup_analyzeAllFrom, hw]
  have hnd : (dictKeys (analyzeAll as buf)).Nodup :=
    nodup_keys_analyzeAllFrom buf as [] (by simp [dictKeys])
  refine dict_ext _ _ (nodup_keys_analyzeAllFrom buf as _ hnd)
    (keys_analyzeAllFrom_sub buf as _ hmem) ?_
  intro k
  have h1 : dictLookup (analyzeAllFrom (analyzeAll as buf) as buf) k =
      match finalFor as k buf with
      | some w => some w
      | none => dictLookup (analyzeAll as buf) k :=
    lookup_analyzeAllFrom buf k as _
  have h2 : dictLookup (analyzeAll as buf) k =
      match finalFor as k buf with
      | some w => some w
      | none => none := by
    rw [analyzeAll, lookup_analyzeAllFrom]
    cases finalFor as k buf <;> simp [dictLookup]
  rw [h1, h2]
  cases finalFor as k buf <;> simp

/-! ## Lemmas: strict decoding and the IP pipeline -/

theorem utf8Next_ascii (b : Nat) (rest : List Nat) (hb : b < 128) :
    utf8Next (b :: rest) = some (b, 1) := by
  simp [utf8Next, hb]

theorem decodeStrictAux_ascii :
    ∀ (fuel : Nat) (bs : List Nat), bs.length ≤ fuel →
      (∀ b ∈ bs, b < 128) →
      utf8DecodeStrictAux fuel bs = Except.ok (bs.map Char.ofNat) := by
  intro fuel
  induction fuel with
  | zero =>
    intro bs hlen _
    have : bs = [] := List.eq_nil_of_length_eq_zero (by omega)
    subst this
    rfl
  | succ f ih =>
    intro bs hlen hall
    cases bs with
    | nil => rfl
    | cons b rest =>
      have hb : b < 128 := hall b (List.mem_cons_self b rest)
      have hrest : ∀ x ∈ rest, x < 128 :=
        fun x hx => hall x (List.mem_cons_of_mem b hx)
      simp only [utf8DecodeStrictAux, utf8Next_ascii b rest hb]
      rw [show (b :: rest).drop 1 = rest from rfl,
        ih rest (by simp at hlen; omega) hrest]
      rfl

theorem utf8DecodeStrict_ascii (bs : List Nat) (h : ∀ b ∈ bs, b < 128) :
    utf8DecodeStrict bs = Except.ok (String.mk (bs.map Char.ofNat)) := by
  rw [utf8DecodeStrict, decodeStrictAux_ascii bs.length bs le_rfl h]
  rfl

theorem splitDot_no_dot :
    ∀ cs : List Char, (∀ c ∈ cs, c ≠ '.') → splitDot cs = [cs] := by
  intro cs
  induction cs with
  | nil => intro _; rfl
  | cons c cs ih =>
    intro h
    have hc : c ≠ '.' := h c (List.mem_cons_self c cs)
    rw [splitDot, if_neg hc, ih (fun x hx => h x (List.mem_cons_of_mem c hx))]

theorem splitDot_append (xs ys : List Char) (h : ∀ c ∈ xs, c ≠ '.') :
    splitDot (xs ++ '.' :: ys) = xs :: splitDot ys := by
  induction xs with
  | nil => simp [splitDot]
  | cons x xs ih =>
    have hx : x ≠ '.' := h x (List.mem_cons_self x xs)
    rw [List.cons_append, splitDot, if_neg hx,
      ih (fun c hc => h c (List.mem_cons_of_mem x hc))]

theorem digitB_bounds (b : Nat) (hb : isDigitB b = true) : 48 ≤ b ∧ b ≤ 57 := by
  simp only [isDigitB, Bool.and_eq_true, decide_eq_true_eq] at hb
  exact hb

theorem digitB_char_ne_dot (b : Nat) (hb : isDigitB b = true) :
    Char.ofNat b ≠ '.' := by
  rcases digitB_bounds b hb with ⟨h1, h2⟩
  interval_cases b <;> decide

theorem digitB_char_isDigitC (b : Nat) (hb : isDigitB b = true) :
    isDigitC (Char.ofNat b) = true := by
  rcases digitB_bounds b hb with ⟨h1, h2⟩
  interval_cases b <;> decide

theorem strToNatE_ok (cs : List Char) (hne : cs ≠ [])
    (hd : ∀ c ∈ cs, isDigitC c = true) :
    strToNatE (String.mk cs) = Except.ok (charsToNat cs) := by
  have h1 : (String.mk cs).data = cs := rfl
  simp [strToNatE, h1, hne, List.all_eq_true.mpr hd]

theorem validQuad_ok :
    ∀ ps : List String, (∀ p ∈ ps, ∃ n, strToNatE p = Except.ok n) →
      ∃ b, validQuad ps = Except.ok b := by
  intro ps
  induction ps with
  | nil => exact fun _ => ⟨true, rfl⟩
  | cons p ps ih =>
    intro h
    rcases h p (List.mem_cons_self p ps) with ⟨n, hn⟩
    rcases ih (fun q hq => h q (List.mem_cons_of_mem p hq)) with ⟨b, hb⟩
    have hstep : validQuad (p :: ps) =
        (strToNatE p).bind
          (fun n => if n ≤ 255 then validQuad ps else pure false) := rfl
    by_cases hle : n ≤ 255
    · exact ⟨b, by rw [hstep, hn]; simp [Except.bind, hle, hb]⟩
    · exact ⟨false, by rw [hstep, hn]; simp [Except.bind, hle, pure, Except.pure]⟩

theorem foldlM_ok {α β : Type} (f : β → α → Except String β) :
    ∀ l : List α, (∀ acc x, x ∈ l → ∃ y, f acc x = Except.ok y) →
      ∀ init, ∃ r, l.foldlM f init = Except.ok r := by
  intro l
  induction l with
  | nil => intro _ init; exact ⟨init, rfl⟩
  | cons x xs ih =>
    intro h init
    rcases h init x (List.mem_cons_self x xs) with ⟨y, hy⟩
    rcases ih (fun acc z hz => h acc z (List.mem_cons_of_mem x hz)) y with ⟨r, hr⟩
    refine ⟨r, ?_⟩
    rw [List.foldlM_cons, hy]
    simpa [Except.bind] using hr

theorem ipMatchAt_post (buf : Buf) (i e : Nat) (bs : List Nat)
    (h : ipMatchAt buf i = some (e, bs)) :
    ∃ g1 g2 g3 g4 : List Nat,
      bs = g1 ++ [46] ++ g2 ++ [46] ++ g3 ++ [46] ++ g4 ∧
      (g1 ≠ [] ∧ ∀ b ∈ g1, isDigitB b) ∧
      (g2 ≠ [] ∧ ∀ b ∈ g2, isDigitB b) ∧
      (g3 ≠ [] ∧ ∀ b ∈ g3, isDigitB b) ∧
      (g4 ≠ [] ∧ ∀ b ∈ g4, isDigitB b) := by
  simp only [ipMatchAt] at h
  split_ifs at h with hws hc1 hc2 hc3 hc4
  · simp only [Option.some.injEq, Prod.mk.injEq] at h
    simp only [Bool.and_eq_true, decide_eq_true_eq] at hc1 hc2 hc3 hc4
    refine ⟨slice buf i (runLen isDigitB buf i), _, _, _, h.2.symm,
      ⟨?_, slice_all isDigitB buf i _ le_rfl⟩,
      ⟨?_, slice_all isDigitB buf _ _ le_rfl⟩,
      ⟨?_, slice_all isDigitB buf _ _ le_rfl⟩,
      ⟨?_, slice_all isDigitB buf _ _ le_rfl⟩⟩
    · have hl := slice_length_of_run isDigitB buf i _ le_rfl
      intro hnil
      rw [hnil] at hl
      simp at hl
      omega
    · have hl := slice_length_of_run isDigitB buf _ _ (le_refl (runLen isDigitB buf (i + runLen isDigitB buf i + 1)))
      intro hnil
      rw [hnil] at hl
      simp at hl
      omega
    · have hl := slice_length_of_run isDigitB buf _ _ (le_refl (runLen isDigitB buf (i + runLen isDigitB buf i + 1 + runLen isDigitB buf (i + runLen isDigitB buf i + 1) + 1)))
      intro hnil
      rw [hnil] at hl
      simp at hl
      omega
    · have hl := slice_length_of_run isDigitB buf _ _ (le_refl (runLen isDigitB buf (i + runLen isDigitB buf i + 1 + runLen isDigitB buf (i + runLen isDigitB buf i + 1) + 1 + runLen isDigitB buf (i + runLen isDigitB buf i + 1 + runLen isDigitB buf (i + runLen isDigitB buf i + 1) + 1) + 1)))
      intro hnil
      rw [hnil] at hl
      simp at hl
      omega

theorem splitDot_quad (g1 g2 g3 g4 : List Nat)
    (h1 : ∀ b ∈ g1, isDigitB b) (h2 : ∀ b ∈ g2, isDigitB b)
    (h3 : ∀ b ∈ g3, isDigitB b) (h4 : ∀ b ∈ g4, isDigitB b) :
    splitDot ((g1 ++ [46] ++ g2 ++ [46] ++ g3 ++ [46] ++ g4).map Char.ofNat) =
      [g1.map Char.ofNat, g2.map Char.ofNat, g3.map Char.ofNat,
        g4.map Char.ofNat] := by
  have hdot : Char.ofNat 46 = '.' := by decide
  have hnd : ∀ (g : List Nat), (∀ b ∈ g, isDigitB b) →
      ∀ c ∈ g.map Char.ofNat, c ≠ '.' := by
    intro g hg c hc
    rcases List.mem_map.mp hc with ⟨b, hb, rfl⟩
    exact digitB_char_ne_dot b (hg b hb)
  simp only [List.map_append, List.map_cons, List.map_nil, hdot]
  have hre : List.map Char.ofNat g1 ++ ['.'] ++ List.map Char.ofNat g2 ++
      ['.'] ++ List.map Char.ofNat g3 ++ ['.'] ++ List.map Char.ofNat g4 =
      List.map Char.ofNat g1 ++ '.' :: (List.map Char.ofNat g2 ++ '.' ::
        (List.map Char.ofNat g3 ++ '.' :: List.map Char.ofNat g4)) := by
    simp [List.append_assoc]
  rw [hre, splitDot_append _ _ (hnd g1 h1), splitDot_append _ _ (hnd g2 h2),
    splitDot_append _ _ (hnd g3 h3), splitDot_no_dot _ (hnd g4 h4)]

theorem digits_part_ok (g : List Nat) (hne : g ≠ [])
    (hd : ∀ b ∈ g, isDigitB b) :
    strToNatE (String.mk (g.map Char.ofNat)) =
      Except.ok (charsToNat (g.map Char.ofNat)) := by
  refine strToNatE_ok _ (by simpa using hne) ?_
  intro c hc
  rcases List.mem_map.mp hc with ⟨b, hb, rfl⟩
  exact digitB_char_isDigitC b (hd b hb)

theorem ipBody_ok (acc : List String) (bs : List Nat)
    (hsh : ∃ g1 g2 g3 g4 : List Nat,
      bs = g1 ++ [46] ++ g2 ++ [46] ++ g3 ++ [46] ++ g4 ∧
      (g1 ≠ [] ∧ ∀ b ∈ g1, isDigitB b) ∧
      (g2 ≠ [] ∧ ∀ b ∈ g2, isDigitB b) ∧
      (g3 ≠ [] ∧ ∀ b ∈ g3, isDigitB b) ∧
      (g4 ≠ [] ∧ ∀ b ∈ g4, isDigitB b)) :
    ∃ y, (do
        let ip ← utf8DecodeStrict bs
        let allOk ← validQuad ((splitDot ip.data).map String.mk)
        pure (if allOk then acc ++ [ip] else acc) :
          Except String (List String)) = Except.ok y := by
  rcases hsh with ⟨g1, g2, g3, g4, hbs, ⟨hn1, hd1⟩, ⟨hn2, hd2⟩, ⟨hn3, hd3⟩,
    ⟨hn4, hd4⟩⟩
  subst hbs
  have hall : ∀ b ∈ g1 ++ [46] ++ g2 ++ [46] ++ g3 ++ [46] ++ g4, b < 128 := by
    intro b hb
    have hdig : ∀ g : List Nat, (∀ x ∈ g, isDigitB x = true) → b ∈ g →
        b < 128 := by
      intro g hg hbg
      rcases digitB_bounds b (hg b hbg) with ⟨ha, hb2⟩
      omega
    simp only [List.mem_append, List.mem_singleton] at hb
    rcases hb with ((((((hb | hb) | hb) | hb) | hb) | hb) | hb)
    · exact hdig g1 hd1 hb
    · omega
    · exact hdig g2 hd2 hb
    · omega
    · exact hdig g3 hd3 hb
    · omega
    · exact hdig g4 hd4 hb
  have hdec := utf8DecodeStrict_ascii _ hall
  have hsplit := splitDot_quad g1 g2 g3 g4 hd1 hd2 hd3 hd4
  have hquad : ∃ bq, validQuad
      (([g1.map Char.ofNat, g2.map Char.ofNat, g3.map Char.ofNat,
        g4.map Char.ofNat]).map String.mk) = Except.ok bq := by
    refine validQuad_ok _ ?_
    intro p hp
    simp only [List.map_cons, List.map_nil, List.mem_cons,
      List.not_mem_nil, or_false] at hp
    rcases hp with rfl | rfl | rfl | rfl
    · exact ⟨_, digits_part_ok g1 hn1 hd1⟩
    · exact ⟨_, digits_part_ok g2 hn2 hd2⟩
    · exact ⟨_, digits_part_ok g3 hn3 hd3⟩
    · exact ⟨_, digits_part_ok g4 hn4 hd4⟩
  rcases hquad with ⟨bq, hbq⟩
  refine ⟨if bq then acc ++
    [String.mk ((g1 ++ [46] ++ g2 ++ [46] ++ g3 ++ [46] ++ g4).map Char.ofNat)]
    else acc, ?_⟩
  rw [show (do
      let ip ← utf8DecodeStrict (g1 ++ [46] ++ g2 ++ [46] ++ g3 ++ [46] ++ g4)
      let allOk ← validQuad ((splitDot ip.data).map String.mk)
      pure (if allOk then acc ++ [ip] else acc) :
        Except String (List String)) =
    (utf8DecodeStrict (g1 ++ [46] ++ g2 ++ [46] ++ g3 ++ [46] ++ g4)).bind
      (fun ip => (validQuad ((splitDot ip.data).map String.mk)).bind
        (fun allOk => pure (if allOk then acc ++ [ip] else acc))) from rfl]
  rw [hdec]
  simp only [Except.bind]
  rw [hsplit, hbq]
  rfl

theorem ipAnalyzeE_ok (buf : Buf) :
    ∃ r, IPAddressExtractor.analyzeE buf = Except.ok r := by
  have hpost := reScan_post (P := fun _ bs => ∃ g1 g2 g3 g4 : List Nat,
      bs = g1 ++ [46] ++ g2 ++ [46] ++ g3 ++ [46] ++ g4 ∧
      (g1 ≠ [] ∧ ∀ b ∈ g1, isDigitB b) ∧
      (g2 ≠ [] ∧ ∀ b ∈ g2, isDigitB b) ∧
      (g3 ≠ [] ∧ ∀ b ∈ g3, isDigitB b) ∧
      (g4 ≠ [] ∧ ∀ b ∈ g4, isDigitB b))
    (fun i e a h => ipMatchAt_post buf i e a h) buf
  have hfold := foldlM_ok
    (fun (acc : List String) (m : Nat × List Nat) => do
      let ip ← utf8DecodeStrict m.2
      let allOk ← validQuad ((splitDot ip.data).map String.mk)
      pure (if allOk then acc ++ [ip] else acc))
    (reScan (ipMatchAt buf) buf)
    (fun acc m hm => ipBody_ok acc m.2 (hpost m hm)) []
  rcases hfold with ⟨r, hr⟩
  refine ⟨{ findings := sortedDedup r }, ?_⟩
  rw [show IPAddressExtractor.analyzeE buf =
    ((reScan (ipMatchAt buf) buf).foldlM
      (fun (acc : List String) (m : Nat × List Nat) => do
        let ip ← utf8DecodeStrict m.2
        let allOk ← validQuad ((splitDot ip.data).map String.mk)
        pure (if allOk then acc ++ [ip] else acc)) []).bind
      (fun valid => pure { findings := sortedDedup valid }) from rfl]
  rw [hr]
  rfl

/-! ## Lemmas: JSON extractor candidate isolation -/

theorem json_candidate_kept (buf : Buf) (m : Nat × List Nat) (v : JValue)
    (hm : m ∈ jsonCandidates buf) (hv : jsonParse (decodeIgnore m.2) = some v) :
    (⟨m.1, v⟩ : JsonFinding) ∈ (JSONExtractor.analyze buf).findings := by
  simp only [JSONExtractor.analyze]
  refine List.mem_filterMap.mpr ⟨m, hm, ?_⟩
  rw [hv]
  rfl

/-- Claim C2: on every buffer each of the seven analyzers returns a
result without raising — the six analyzers whose bodies contain no
uncaught fallible operation are pure, and the IP extractor, whose
strict decode and integer parses are fallible, still always succeeds
because its matched candidates are digit-and-dot bytes; moreover a
JSON candidate that fails to parse is dropped by itself: every
candidate that parses yields its finding regardless of the other
candidates. -/
theorem claim2_analyzers_never_raise (buf : Buf) :
    StringExtractor.analyzeE buf = Except.ok (StringExtractor.analyze buf) ∧
      CredentialHunter.analyzeE buf = Except.ok (CredentialHunter.analyze buf) ∧
      BSONFieldAnalyzer.analyzeE buf =
        Except.ok (BSONFieldAnalyzer.analyze buf) ∧
      JSONExtractor.analyzeE buf = Except.ok (JSONExtractor.analyze buf) ∧
      EmailExtractor.analyzeE buf = Except.ok (EmailExtractor.analyze buf) ∧
      HexDumpAnalyzer.analyzeE buf = Except.ok (HexDumpAnalyzer.analyze buf) ∧
      (∃ r, IPAddressExtractor.analyzeE buf = Except.ok r) ∧
      (∀ m ∈ jsonCandidates buf, ∀ v, jsonParse (decodeIgnore m.2) = some v →
        (⟨m.1, v⟩ : JsonFinding) ∈ (JSONExtractor.analyze buf).findings) := by
  refine ⟨rfl, rfl, rfl, rfl, rfl, rfl, ipAnalyzeE_ok buf, ?_⟩
  intro m hm v hv
  exact json_candidate_kept buf m v hm hv

/-- Closed instance of claim C2: the IP extractor succeeds on a
concrete buffer, and the parsed JSON candidate of demoJsonBuf is kept
as a finding. -/
theorem claim2_analyzers_never_raise_witness :
    (∃ r, IPAddressExtractor.analyzeE demoIpBuf = Except.ok r) ∧
      (⟨0, JValue.jobj [(("aaaaaaa"), JValue.jint 1)]⟩ : JsonFinding) ∈
        (JSONExtractor.analyze demoJsonBuf).findings := by
  refine ⟨(claim2_analyzers_never_raise demoIpBuf).2.2.2.2.2.2.1, ?_⟩
  have hc : jsonCandidates demoJsonBuf = [(0, demoJsonBuf)] := by decide
  have hmem : ((0, demoJsonBuf) : Nat × List Nat) ∈ jsonCandidates demoJsonBuf := by
    rw [hc]
    exact List.mem_singleton.mpr rfl
  exact (claim2_analyzers_never_raise demoJsonBuf).2.2.2.2.2.2.2
    (0, demoJsonBuf) hmem (JValue.jobj [(("aaaaaaa"), JValue.jint 1)]) rfl

/-! ## Lemmas: counters and the layout analyzer -/

theorem counterGet_bump {α : Type} [DecidableEq α] (d : List (α × Nat))
    (k c : α) :
    counterGet (counterBump d k) c =
      counterGet d c + (if k = c then 1 else 0) := by
  induction d with
  | nil =>
    by_cases hkc : k = c <;> simp [counterBump, counterGet, hkc]
  | cons kv rest ih =>
    by_cases hk : kv.1 = k
    · by_cases hc : kv.1 = c
      · have hkc : k = c := by rw [← hk, hc]
        simp [counterBump, counterGet, hk, hc, hkc]
      · have hkc : ¬k = c := by rw [← hk]; exact hc
        simp [counterBump, counterGet, hk, hc, hkc]
    · by_cases hc : kv.1 = c
      · have hck : ¬c = k := fun h => hk (hc.trans h)
        have hkc : ¬k = c := fun h => hck h.symm
        simp [counterBump, counterGet, hk, hc, hck, hkc]
      · simp [counterBump, counterGet, hk, hc, ih]

theorem counterGet_foldl {α : Type} [DecidableEq α] :
    ∀ (l : List α) (d : List (α × Nat)) (c : α),
      counterGet (l.foldl counterBump d) c =
        counterGet d c + (l.filter (fun x => x = c)).length := by
  intro l
  induction l with
  | nil => intro d c; simp
  | cons x xs ih =>
    intro d c
    have h1 : (x :: xs).foldl counterBump d = xs.foldl counterBump (counterBump d x) := rfl
    rw [h1, ih, counterGet_bump]
    by_cases hx : x = c <;> simp [List.filter, hx] <;> omega

theorem counterGet_counterOf {α : Type} [DecidableEq α] (l : List α) (c : α) :
    counterGet (counterOf l) c = (l.filter (fun x => x = c)).length := by
  rw [counterOf, counterGet_foldl]
  simp [counterGet]

theorem filter_of_map {α β : Type} [DecidableEq β] (f : α → β) (c : β) :
    ∀ l : List α,
      ((l.map f).filter (fun x => x = c)).length =
        (l.filter (fun i => f i = c)).length := by
  intro l
  induction l with
  | nil => rfl
  | cons x xs ih =>
    by_cases hx : f x = c <;> simp [List.filter, hx, ih]

/-- Claim C4 (amended): the layout analyzer counts the 4-byte chunks
at stride-4 offsets i with i + 4 strictly below the buffer length (the
loop range stops at len - 4, so the final aligned chunk is never
counted), and top_patterns is the first ten entries of the stable
descending sort of that counter, rendered as hex with counts. -/
theorem claim4_top_patterns (buf : Buf) :
    (∀ c : Buf, counterGet (counterOf (HexDumpAnalyzer.chunks buf)) c =
      ((hexChunkStarts buf.length).filter (fun i => slice buf i 4 = c)).length) ∧
      (HexDumpAnalyzer.analyze buf).top_patterns =
        ((sortDescByCount (counterOf (HexDumpAnalyzer.chunks buf))).take 10).map
          (fun pc => (hexOfBytes pc.1, pc.2)) ∧
      (hexChunkStarts buf.length).all (fun i => i + 4 < buf.length) = true := by
  refine ⟨?_, rfl, ?_⟩
  · intro c
    rw [counterGet_counterOf, HexDumpAnalyzer.chunks,
      filter_of_map (fun i => slice buf i 4) c]
  · rw [List.all_eq_true]
    intro i hi
    simp only [hexChunkStarts, List.mem_map, List.mem_range] at hi
    rcases hi with ⟨j, hj, rfl⟩
    simp only [decide_eq_true_eq]
    omega

/-- Claim C4 counterexample: a buffer whose length is exactly 4 has
one aligned chunk, yet the analyzer records no pattern at all — the
chunk at offset 0 is not counted and top_patterns is empty. -/
theorem claim4_counterexample :
    demoC4Buf.length = 4 ∧
      counterGet (counterOf (HexDumpAnalyzer.chunks demoC4Buf)) [1, 1, 1, 1] = 0 ∧
      (HexDumpAnalyzer.analyze demoC4Buf).top_patterns = [] := by
  refine ⟨rfl, rfl, rfl⟩

/-! ## Lemmas: credential deduplication -/

theorem dedupSeen_props :
    ∀ (l : List CredFinding) (seen : List String),
      ((CredentialHunter.dedupSeen seen l).map CredFinding.value).Nodup ∧
        ∀ f ∈ CredentialHunter.dedupSeen seen l, f.value ∉ seen := by
  intro l
  induction l with
  | nil =>
    intro seen
    exact ⟨List.nodup_nil, by intro f hf; simp [CredentialHunter.dedupSeen] at hf⟩
  | cons f fs ih =>
    intro seen
    by_cases hmem : f.value ∈ seen
    · simp only [CredentialHunter.dedupSeen, if_pos hmem]
      exact ih seen
    · simp only [CredentialHunter.dedupSeen, if_neg hmem]
      rcases ih (f.value :: seen) with ⟨hnd, hnot⟩
      refine ⟨?_, ?_⟩
      · simp only [List.map_cons, List.nodup_cons]
        refine ⟨?_, hnd⟩
        intro hmem2
        rcases List.mem_map.mp hmem2 with ⟨g, hg, hgv⟩
        exact hnot g hg (by rw [hgv]; exact List.mem_cons_self _ _)
      · intro g hg
        rcases List.mem_cons.mp hg with rfl | hg2
        · exact hmem
        · exact fun hgseen => hnot g hg2 (List.mem_cons_of_mem _ hgseen)

theorem dedupSeen_sublist :
    ∀ (l : List CredFinding) (seen : List String),
      (CredentialHunter.dedupSeen seen l).Sublist l := by
  intro l
  induction l with
  | nil => intro seen; simp [CredentialHunter.dedupSeen]
  | cons f fs ih =>
    intro seen
    by_cases hmem : f.value ∈ seen
    · simp only [CredentialHunter.dedupSeen, if_pos hmem]
      exact (ih seen).cons f
    · simp only [CredentialHunter.dedupSeen, if_neg hmem]
      exact (ih (f.value :: seen)).cons₂ f

theorem dedupSeen_complete :
    ∀ (l : List CredFinding) (seen : List String) (f : CredFinding), f ∈ l →
      f.value ∈ seen ∨
        f.value ∈ (CredentialHunter.dedupSeen seen l).map CredFinding.value := by
  intro l
  induction l with
  | nil => intro seen f hf; simp at hf
  | cons g gs ih =>
    intro seen f hf
    by_cases hmem : g.value ∈ seen
    · simp only [CredentialHunter.dedupSeen, if_pos hmem]
      rcases List.mem_cons.mp hf with rfl | hf2
      · exact Or.inl hmem
      · exact ih seen f hf2
    · simp only [CredentialHunter.dedupSeen, if_neg hmem, List.map_cons]
      rcases List.mem_cons.mp hf with rfl | hf2
      · exact Or.inr (List.mem_cons_self _ _)
      · rcases ih (g.value :: seen) f hf2 with hseen | hres
        · rcases List.mem_cons.mp hseen with heq | hseen2
          · exact Or.inr (heq ▸ List.mem_cons_self _ _)
          · exact Or.inl hseen2
        · exact Or.inr (List.mem_cons_of_mem _ hres)

theorem rawFindings_value (buf : Buf)
    (pats : List (Buf → Nat → Option (Nat × (Nat × Nat)))) :
    ∀ f ∈ CredentialHunter.rawFindings buf pats,
      ∃ gs gl, f.value = truncate200 (decodeReplace (slice buf gs gl)) := by
  intro f hf
  simp only [CredentialHunter.rawFindings] at hf
  rcases List.mem_flatMap.mp hf with ⟨mfun, hmf, hf2⟩
  rcases List.mem_map.mp hf2 with ⟨r, hr, hrf⟩
  exact ⟨r.2.1, r.2.2, by rw [← hrf]⟩

theorem truncate200_le (s : String) : (truncate200 s).length ≤ 200 := by
  have h : (truncate200 s).length = (s.data.take 200).length := rfl
  rw [h, List.length_take]
  omega

theorem credFold_mem (buf : Buf) :
    ∀ (ps : List (String × List (Buf → Nat → Option (Nat × (Nat × Nat)))))
      (acc : List (String × List CredFinding)) (cat : String)
      (items : List CredFinding),
      (cat, items) ∈ ps.foldl (fun acc cp =>
        let raw := CredentialHunter.rawFindings buf cp.2
        if raw.isEmpty then acc
        else acc ++ [(cp.1, CredentialHunter.dedupSeen [] raw)]) acc →
      (cat, items) ∈ acc ∨
        ∃ pats, (cat, pats) ∈ ps ∧
          items = CredentialHunter.dedupSeen []
            (CredentialHunter.rawFindings buf pats) ∧
          CredentialHunter.rawFindings buf pats ≠ [] := by
  intro ps
  induction ps with
  | nil => intro acc cat items h; exact Or.inl h
  | cons p ps ih =>
    intro acc cat items h
    rcases ih _ cat items h with hacc | ⟨pats, hp, hi, hne⟩
    · by_cases he : (CredentialHunter.rawFindings buf p.2).isEmpty
      · simp only [if_pos he] at hacc
        exact Or.inl hacc
      · simp only [if_neg he] at hacc
        rcases List.mem_append.mp hacc with h1 | h2
        · exact Or.inl h1
        · rcases List.mem_singleton.mp h2 with h3
          have hcat : cat = p.1 := congrArg Prod.fst h3
          have hitems : items = CredentialHunter.dedupSeen []
              (CredentialHunter.rawFindings buf p.2) := congrArg Prod.snd h3
          refine Or.inr ⟨p.2, ?_, hitems, ?_⟩
          · rw [hcat]
            exact List.mem_cons_self p ps
          · intro hnil
            rw [List.isEmpty_iff] at he
            exact he hnil
    · exact Or.inr ⟨pats, List.mem_cons_of_mem p hp, hi, hne⟩

theorem credAnalyze_mem (buf : Buf) (cat : String) (items : List CredFinding)
    (h : (cat, items) ∈ CredentialHunter.analyze buf) :
    ∃ pats, (cat, pats) ∈ credPatterns ∧
      items = CredentialHunter.dedupSeen []
        (CredentialHunter.rawFindings buf pats) ∧
      CredentialHunter.rawFindings buf pats ≠ [] := by
  have h2 := credFold_mem buf credPatterns [] cat items h
  rcases h2 with h3 | h4
  · simp at h3
  · exact h4

/-- Claim C6: each stored credential category holds each distinct
captured value exactly once (case-sensitive, first occurrence kept, an
order-preserving sublist of the raw scan), every stored value is
truncated to at most 200 characters, and the specification's test
vector yields exactly one passwords entry with value secret123. -/
theorem claim6_cred_dedup :
    (∀ (buf : Buf) (cat : String) (items : List CredFinding),
      (cat, items) ∈ CredentialHunter.analyze buf →
        (items.map CredFinding.value).Nodup ∧
          (∀ f ∈ items, f.value.length ≤ 200) ∧
          ∃ pats, (cat, pats) ∈ credPatterns ∧
            items.Sublist (CredentialHunter.rawFindings buf pats) ∧
            ∀ f ∈ CredentialHunter.rawFindings buf pats,
              f.value ∈ items.map CredFinding.value) ∧
      CredentialHunter.analyze demoCredBuf =
        [(("passwords"), [{ offset := 0, value := ("secret123") }])] := by
  constructor
  · intro buf cat items hmem
    rcases credAnalyze_mem buf cat items hmem with ⟨pats, hp, hi, hne⟩
    refine ⟨?_, ?_, pats, hp, ?_, ?_⟩
    · rw [hi]
      exact (dedupSeen_props _ []).1
    · intro f hf
      have hfr : f ∈ CredentialHunter.rawFindings buf pats :=
        (dedupSeen_sublist _ []).subset (hi ▸ hf)
      rcases rawFindings_value buf pats f hfr with ⟨gs, gl, hv⟩
      rw [hv]
      exact truncate200_le _
    · rw [hi]
      exact dedupSeen_sublist _ []
    · intro f hf
      rcases dedupSeen_complete _ [] f hf with hseen | hres
      · simp at hseen
      · rw [hi]
        exact hres
  · decide

/-- Closed instance of claim C6 on the specification's test vector. -/
theorem claim6_cred_dedup_witness :
    (([{ offset := 0, value := ("secret123") }] : List CredFinding).map
        CredFinding.value).Nodup ∧
      ∀ f ∈ ([{ offset := 0, value := ("secret123") }] : List CredFinding),
        f.value.length ≤ 200 := by
  have h := claim6_cred_dedup.1 demoCredBuf ("passwords")
    [{ offset := 0, value := ("secret123") }]
    (by rw [claim6_cred_dedup.2]; exact List.mem_singleton.mpr rfl)
  exact ⟨h.1, h.2.1⟩

/-! ## Lemmas: BSON field analyzer -/

theorem bsonFieldAt_post (buf : Buf) (i e k : Nat)
    (h : bsonFieldAt buf i = some (e, k)) :
    1 ≤ k ∧ k ≤ 50 ∧
      (∃ b, byteAt buf i = some b ∧ isIdentStart b) ∧
      (∀ b ∈ slice buf (i + 1) k, isIdentCont b) ∧
      byteAt buf (i + 1 + k) = some 0 := by
  cases hb : byteAt buf i with
  | none =>
    unfold bsonFieldAt at h
    rw [hb] at h
    exact Option.noConfusion h
  | some b =>
    unfold bsonFieldAt at h
    rw [hb] at h
    have h2 : (if isIdentStart b then
        (if 1 ≤ runLen isIdentCont buf (i + 1) then
          (if byteAt buf (i + 1 + min (runLen isIdentCont buf (i + 1)) 50) =
              some 0 then
            some (i + 1 + min (runLen isIdentCont buf (i + 1)) 50 + 1,
              min (runLen isIdentCont buf (i + 1)) 50)
          else none)
        else none)
      else none) = some (e, k) := h
    clear h
    split_ifs at h2 with hstart hr hnull
    · simp only [Option.some.injEq, Prod.mk.injEq] at h2
      have hk : min (runLen isIdentCont buf (i + 1)) 50 = k := h2.2
      refine ⟨?_, ?_, ⟨b, rfl, hstart⟩, ?_, ?_⟩
      · rw [← hk]
        exact Nat.le_min.mpr ⟨hr, by omega⟩
      · rw [← hk]
        exact Nat.min_le_right _ _
      · rw [← hk]
        exact slice_all isIdentCont buf (i + 1) _ (Nat.min_le_left _ _)
      · rw [← hk]
        exact hnull

theorem fieldNames_post (buf : Buf) :
    ∀ f ∈ BSONFieldAnalyzer.fieldNames buf,
      ∃ k, 1 ≤ k ∧ k ≤ 50 ∧
        (∃ b, byteAt buf f.offset = some b ∧ isIdentStart b) ∧
        (∀ b ∈ slice buf (f.offset + 1) k, isIdentCont b) ∧
        byteAt buf (f.offset + 1 + k) = some 0 ∧
        f.name = decodeIgnore (slice buf f.offset (1 + k)) := by
  intro f hf
  simp only [BSONFieldAnalyzer.fieldNames] at hf
  rcases List.mem_map.mp hf with ⟨m, hm, hrf⟩
  have hpost := reScan_post (P := fun i k =>
      1 ≤ k ∧ k ≤ 50 ∧
        (∃ b, byteAt buf i = some b ∧ isIdentStart b) ∧
        (∀ b ∈ slice buf (i + 1) k, isIdentCont b) ∧
        byteAt buf (i + 1 + k) = some 0)
    (fun i e a h => bsonFieldAt_post buf i e a h) buf m hm
  rw [← hrf]
  exact ⟨m.2, hpost.1, hpost.2.1, hpost.2.2.1, hpost.2.2.2.1, hpost.2.2.2.2, rfl⟩

/-- Claim C5 (amended): every recorded field name is a regex match of
a letter-or-underscore byte followed by one to fifty bytes of letters,
digits, underscore or dot (so names are 2 to 51 characters) that is
immediately followed by a null byte, decoded from the buffer at the
recorded offset; matches are taken by the non-overlapping left-to-right
scan, so tokens beginning with a digit or dot, and sub-tokens inside a
taken match, are not counted. -/
theorem claim5_bson_tokens (buf : Buf) :
    ∀ f ∈ (BSONFieldAnalyzer.analyze buf).all_fields,
      ∃ k, 1 ≤ k ∧ k ≤ 50 ∧
        (∃ b, byteAt buf f.offset = some b ∧ isIdentStart b) ∧
        (∀ b ∈ slice buf (f.offset + 1) k, isIdentCont b) ∧
        byteAt buf (f.offset + 1 + k) = some 0 ∧
        f.name = decodeIgnore (slice buf f.offset (1 + k)) := by
  intro f hf
  simp only [BSONFieldAnalyzer.analyze] at hf
  exact fieldNames_post buf f (List.take_subset _ _ hf)

/-- Closed instance of claim C5 (amended) on a buffer holding one
null-terminated name. -/
theorem claim5_bson_tokens_witness :
    ∃ k, 1 ≤ k ∧ k ≤ 50 ∧
      (∃ b, byteAt demoBsonBuf 0 = some b ∧ isIdentStart b) ∧
      (∀ b ∈ slice demoBsonBuf (0 + 1) k, isIdentCont b) ∧
      byteAt demoBsonBuf (0 + 1 + k) = some 0 ∧
      ({ offset := 0, name := ("name") } : BsonField).name =
        decodeIgnore (slice demoBsonBuf 0 (1 + k)) := by
  refine claim5_bson_tokens demoBsonBuf { offset := 0, name := ("name") } ?_
  have h : (BSONFieldAnalyzer.analyze demoBsonBuf).all_fields =
      [{ offset := 0, name := ("name") }] := by decide
  rw [h]
  exact List.mem_singleton.mpr rfl

/-- Claim C5 counterexample: in the three-byte buffer 1 a NUL, the
token 1a satisfies the claim's candidate-token condition (letters and
digits, length 2, immediately followed by a null byte), yet the
analyzer counts no field at all, because the source pattern requires
the first byte to be a letter or underscore. -/
theorem claim5_counterexample :
    specClaimTokenAt demoC5Buf 0 2 = true ∧
      (BSONFieldAnalyzer.analyze demoC5Buf).total_fields = 0 := by
  exact ⟨by decide, by decide⟩

/-! ## Lemmas: finding shapes and offsets -/

theorem strMatchAt_post (buf : Buf) (i e r : Nat)
    (h : strMatchAt buf i = some (e, r)) :
    4 ≤ r ∧ r = runLen isPrintable buf i := by
  simp only [strMatchAt] at h
  split_ifs at h with h4
  simp only [Option.some.injEq, Prod.mk.injEq] at h
  exact ⟨h.2 ▸ h4, h.2.symm⟩

theorem stringFindings_post (buf : Buf) :
    ∀ f ∈ (StringExtractor.analyze buf).findings,
      4 ≤ runLen isPrintable buf f.offset ∧
        (∃ b, byteAt buf f.offset = some b ∧ isPrintable b) ∧
        f.content =
          decodeAsciiIgnore (slice buf f.offset (runLen isPrintable buf f.offset)) := by
  intro f hf
  simp only [StringExtractor.analyze] at hf
  have hf2 := List.take_subset 500 _ hf
  rcases List.mem_map.mp hf2 with ⟨m, hm, hrf⟩
  have hp := reScan_post (P := fun i r => 4 ≤ r ∧ r = runLen isPrintable buf i)
    (fun i e a h => strMatchAt_post buf i e a h) buf m hm
  have hrun : 4 ≤ runLen isPrintable buf m.1 := hp.2 ▸ hp.1
  rw [← hrf]
  refine ⟨hrun, byteAt_of_run isPrintable buf m.1 (by omega), ?_⟩
  rw [← hp.2]

theorem sepGroupAssemble_post (gc : Nat → Bool) (ml : Nat) (buf : Buf)
    (p e gs gl : Nat)
    (h : sepGroupAssemble gc ml buf p = some (e, (gs, gl))) : p ≤ gs := by
  simp only [sepGroupAssemble] at h
  cases hsb : sepBacktrack gc ml buf p (runLen isSep buf p) with
  | none => rw [hsb] at h; exact Option.noConfusion h
  | some kg =>
    rcases kg with ⟨k, g⟩
    rw [hsb] at h
    have h3 := Option.some.inj h
    have hgs : p + k = gs := congrArg (fun x => x.2.1) h3
    omega

theorem kwSepGroupAt_post (kw : List Nat) (gc : Nat → Bool) (ml : Nat)
    (buf : Buf) (i e gs gl : Nat)
    (h : kwSepGroupAt kw gc ml buf i = some (e, (gs, gl))) :
    ciLitAt kw buf i = true ∧ i ≤ gs := by
  simp only [kwSepGroupAt] at h
  split_ifs at h with hci
  have hp := sepGroupAssemble_post gc ml buf (i + kw.length) e gs gl h
  exact ⟨hci, by omega⟩

theorem apiKeyMatchAt_post (buf : Buf) (i e gs gl : Nat)
    (h : apiKeyMatchAt buf i = some (e, (gs, gl))) :
    ciLitAt (strBytes ("api")) buf i = true ∧ i ≤ gs := by
  simp only [apiKeyMatchAt] at h
  split_ifs at h with hci hkey
  · refine ⟨hci, ?_⟩
    cases hb : byteAt buf (i + 3) with
    | none => simp [hb] at h
    | some b =>
      by_cases hc1 : ((b = 95 || b = 45) &&
          ciLitAt (strBytes ("key")) buf (i + 3 + 1)) = true
      · simp only [hb, hc1, if_true] at h
        have hp := sepGroupAssemble_post isKeyChar 16 buf (i + 3 + 4) e gs gl h
        omega
      · simp only [hb, if_neg hc1] at h
        have hp := sepGroupAssemble_post isKeyChar 16 buf (i + 3 + 3) e gs gl h
        omega
  · refine ⟨hci, ?_⟩
    cases hb : byteAt buf (i + 3) with
    | none => simp [hb] at h
    | some b =>
      by_cases hc1 : ((b = 95 || b = 45) &&
          ciLitAt (strBytes ("key")) buf (i + 3 + 1)) = true
      · simp only [hb, hc1, if_true] at h
        have hp := sepGroupAssemble_post isKeyChar 16 buf (i + 3 + 4) e gs gl h
        omega
      · simp only [hb, if_neg hc1] at h
        exact Option.noConfusion h

theorem awsMatchAt_post (buf : Buf) (i e gs gl : Nat)
    (h : awsMatchAt buf i = some (e, (gs, gl))) :
    ciLitAt (strBytes ("akia")) buf i = true ∧ i ≤ gs := by
  simp only [awsMatchAt] at h
  split_ifs at h with hci h16
  have h2 := Option.some.inj h
  have hgs : i = gs := congrArg (fun x => x.2.1) h2
  exact ⟨hci, by omega⟩

theorem uriMatchAt_post (lead : List Nat) (buf : Buf) (i e gs gl : Nat)
    (h : uriMatchAt lead buf i = some (e, (gs, gl))) :
    ciLitAt lead buf i = true ∧ i ≤ gs := by
  simp only [uriMatchAt] at h
  split_ifs at h with hci hr
  have h2 := Option.some.inj h
  have hgs : i = gs := congrArg (fun x => x.2.1) h2
  exact ⟨hci, by omega⟩

theorem credMatcher_lead (buf : Buf) (cat : String)
    (pats : List (Buf → Nat → Option (Nat × (Nat × Nat))))
    (hcp : (cat, pats) ∈ credPatterns)
    (mf : Buf → Nat → Option (Nat × (Nat × Nat))) (hmf : mf ∈ pats)
    (i e gs gl : Nat) (h : mf buf i = some (e, (gs, gl))) :
    (∃ kw ∈ credLeadsFor cat, ciLitAt kw buf i = true) ∧ i ≤ gs := by
  simp only [credPatterns, List.mem_cons, List.not_mem_nil, or_false] at hcp
  rcases hcp with hcp | hcp | hcp | hcp | hcp | hcp | hcp <;>
    (rw [Prod.mk.injEq] at hcp
     obtain ⟨hcat, hpats⟩ := hcp
     subst hcat
     subst hpats
     simp only [List.mem_cons, List.not_mem_nil, or_false] at hmf)
  · rcases hmf with rfl | rfl | rfl
    · rcases kwSepGroupAt_post _ _ _ buf i e gs gl h with ⟨hci, hle⟩
      exact ⟨⟨strBytes ("password"), by decide, hci⟩, hle⟩
    · rcases kwSepGroupAt_post _ _ _ buf i e gs gl h with ⟨hci, hle⟩
      exact ⟨⟨strBytes ("passwd"), by decide, hci⟩, hle⟩
    · rcases kwSepGroupAt_post _ _ _ buf i e gs gl h with ⟨hci, hle⟩
      exact ⟨⟨strBytes ("pwd"), by decide, hci⟩, hle⟩
  · rcases hmf with rfl | rfl | rfl
    · rcases kwSepGroupAt_post _ _ _ buf i e gs gl h with ⟨hci, hle⟩
      exact ⟨⟨strBytes ("username"), by decide, hci⟩, hle⟩
    · rcases kwSepGroupAt_post _ _ _ buf i e gs gl h with ⟨hci, hle⟩
      exact ⟨⟨strBytes ("user"), by decide, hci⟩, hle⟩
    · rcases kwSepGroupAt_post _ _ _ buf i e gs gl h with ⟨hci, hle⟩
      exact ⟨⟨strBytes ("login"), by decide, hci⟩, hle⟩
  · rcases hmf with rfl | rfl
    · rcases apiKeyMatchAt_post buf i e gs gl h with ⟨hci, hle⟩
      exact ⟨⟨strBytes ("api"), by decide, hci⟩, hle⟩
    · rcases kwSepGroupAt_post _ _ _ buf i e gs gl h with ⟨hci, hle⟩
      exact ⟨⟨strBytes ("apikey"), by decide, hci⟩, hle⟩
  · rcases hmf with rfl | rfl
    · rcases kwSepGroupAt_post _ _ _ buf i e gs gl h with ⟨hci, hle⟩
      exact ⟨⟨strBytes ("token"), by decide, hci⟩, hle⟩
    · rcases kwSepGroupAt_post _ _ _ buf i e gs gl h with ⟨hci, hle⟩
      exact ⟨⟨strBytes ("auth"), by decide, hci⟩, hle⟩
  · rcases hmf with rfl
    rcases kwSepGroupAt_post _ _ _ buf i e gs gl h with ⟨hci, hle⟩
    exact ⟨⟨strBytes ("secret"), by decide, hci⟩, hle⟩
  · rcases hmf with rfl
    rcases awsMatchAt_post buf i e gs gl h with ⟨hci, hle⟩
    exact ⟨⟨strBytes ("akia"), by decide, hci⟩, hle⟩
  · rcases hmf with rfl | rfl
    · rcases uriMatchAt_post _ buf i e gs gl h with ⟨hci, hle⟩
      exact ⟨⟨strBytes ("mongodb://"), by decide, hci⟩, hle⟩
    · rcases uriMatchAt_post _ buf i e gs gl h with ⟨hci, hle⟩
      exact ⟨⟨strBytes ("mongodb+srv://"), by decide, hci⟩, hle⟩

theorem credFindings_lead (buf : Buf) (cat : String)
    (items : List CredFinding)
    (hmem : (cat, items) ∈ CredentialHunter.analyze buf) :
    ∀ f ∈ items,
      (∃ kw ∈ credLeadsFor cat, ciLitAt kw buf f.offset = true) ∧
        ∃ gs gl, f.offset ≤ gs ∧
          f.value = truncate200 (decodeReplace (slice buf gs gl)) := by
  intro f hf
  rcases credAnalyze_mem buf cat items hmem with ⟨pats, hcp, hi, _⟩
  have hfr : f ∈ CredentialHunter.rawFindings buf pats :=
    (dedupSeen_sublist _ []).subset (hi ▸ hf)
  simp only [CredentialHunter.rawFindings] at hfr
  rcases List.mem_flatMap.mp hfr with ⟨mf, hmf, hf2⟩
  rcases List.mem_map.mp hf2 with ⟨r, hr, hrf⟩
  have hpost := reScan_post (P := fun i a =>
      (∃ kw ∈ credLeadsFor cat, ciLitAt kw buf i = true) ∧ i ≤ a.1)
    (fun i e a h => credMatcher_lead buf cat pats hcp mf hmf i e a.1 a.2 h)
    buf r hr
  rw [← hrf]
  exact ⟨hpost.1, r.2.1, r.2.2, hpost.2, rfl⟩

theorem jsonBacktrack_post (buf : Buf) (i : Nat) :
    ∀ n k : Nat, jsonBacktrack buf i n = some k →
      10 ≤ k ∧ k ≤ n ∧ byteAt buf (i + 1 + k) = some 125 := by
  intro n
  induction n with
  | zero => intro k h; exact Option.noConfusion h
  | succ m ih =>
    intro k h
    simp only [jsonBacktrack] at h
    split_ifs at h with h10 h125
    · have hk := Option.some.inj h
      subst hk
      exact ⟨by omega, le_rfl, h125⟩
    · rcases ih k h with ⟨h1, h2, h3⟩
      exact ⟨h1, by omega, h3⟩

theorem jsonCandidateAt_post (buf : Buf) (i e : Nat) (bs : List Nat)
    (h : jsonCandidateAt buf i = some (e, bs)) :
    byteAt buf i = some 123 ∧
      ∃ k, 10 ≤ k ∧ k ≤ 500 ∧
        (∀ b ∈ slice buf (i + 1) k, b ≠ 0) ∧
        byteAt buf (i + 1 + k) = some 125 ∧
        bs = slice buf i (k + 2) := by
  simp only [jsonCandidateAt] at h
  split_ifs at h with h123
  refine ⟨h123, ?_⟩
  cases hjb : jsonBacktrack buf i
      (min (runLen (fun b => b ≠ 0) buf (i + 1)) 500) with
  | none => rw [hjb] at h; exact Option.noConfusion h
  | some k =>
    rw [hjb] at h
    have h2 : ((i + k + 2, slice buf i (k + 2)) : Nat × List Nat) =
        (e, bs) := Option.some.inj h
    rcases jsonBacktrack_post buf i _ k hjb with ⟨h10, hle, h125⟩
    refine ⟨k, h10, ?_, ?_, h125, (congrArg Prod.snd h2).symm⟩
    · exact le_trans hle (Nat.min_le_right _ _)
    · intro b hb
      have hk : k ≤ runLen (fun b => b ≠ 0) buf (i + 1) :=
        le_trans hle (Nat.min_le_left _ _)
      have := slice_all (fun b => b ≠ 0) buf (i + 1) k hk b hb
      simpa using this

theorem jsonFindings_post (buf : Buf) :
    ∀ f ∈ (JSONExtractor.analyze buf).findings,
      byteAt buf f.offset = some 123 ∧
        ∃ k, 10 ≤ k ∧ k ≤ 500 ∧
          (∀ b ∈ slice buf (f.offset + 1) k, b ≠ 0) ∧
          byteAt buf (f.offset + 1 + k) = some 125 ∧
          jsonParse (decodeIgnore (slice buf f.offset (k + 2))) =
            some f.data := by
  intro f hf
  simp only [JSONExtractor.analyze] at hf
  rcases List.mem_filterMap.mp hf with ⟨m, hm, hfm⟩
  rcases Option.map_eq_some'.mp hfm with ⟨v, hv, hfv⟩
  have hpost := reScan_post (P := fun i bs =>
      byteAt buf i = some 123 ∧
        ∃ k, 10 ≤ k ∧ k ≤ 500 ∧
          (∀ b ∈ slice buf (i + 1) k, b ≠ 0) ∧
          byteAt buf (i + 1 + k) = some 125 ∧
          bs = slice buf i (k + 2))
    (fun i e a h => jsonCandidateAt_post buf i e a h) buf m hm
  rw [← hfv]
  rcases hpost with ⟨hb, k, h10, h500, hnn, h125, hbs⟩
  refine ⟨hb, k, h10, h500, hnn, h125, ?_⟩
  rw [← hbs]
  exact hv

theorem hasOffsetField_str (f : StrFinding) :
    hasOffsetField (strFindingJson f) = true := by
  simp [hasOffsetField, strFindingJson]

theorem hasOffsetField_cred (f : CredFinding) :
    hasOffsetField (credFindingJson f) = true := by
  simp [hasOffsetField, credFindingJson]

theorem hasOffsetField_bson (f : BsonField) :
    hasOffsetField (bsonFieldJson f) = true := by
  simp [hasOffsetField, bsonFieldJson]

theorem hasOffsetField_json (f : JsonFinding) :
    hasOffsetField (jsonFindingJson f) = true := by
  simp [hasOffsetField, jsonFindingJson]

theorem emailJson_shape (buf : Buf) :
    ∀ j ∈ emailFindingsJson buf,
      hasOffsetField j = false ∧ ∃ s, j = JValue.jstr s := by
  intro j hj
  rcases List.mem_map.mp hj with ⟨s, _, hrf⟩
  exact ⟨hrf ▸ rfl, s, hrf.symm⟩

theorem ipJson_shape (r : StrListResult) :
    ∀ j ∈ ipFindingsJson r,
      hasOffsetField j = false ∧ ∃ s, j = JValue.jstr s := by
  intro j hj
  rcases List.mem_map.mp hj with ⟨s, _, hrf⟩
  exact ⟨hrf ▸ rfl, s, hrf.symm⟩

/-- Claim C3 (amended): findings of the string extractor, the
credential hunter, the BSON field analyzer and the JSON extractor
carry a non-negative offset equal to the byte position in the buffer
where the match began, together with the finding's value — the string
extractor's printable run starts at the offset and its content is
decoded from there, a credential match starts with one of its
category's keywords at the offset and captures its value at or after
it, a BSON match is the identifier-and-null pattern at the offset with
the name decoded from it, and a JSON finding's offset holds the
opening brace of the candidate whose decoded text parses to the stored
data — while the email and IP extractors store bare strings that
carry no offset at all. -/
theorem claim3_finding_offsets (buf : Buf) :
    (∀ f ∈ (StringExtractor.analyze buf).findings,
      hasOffsetField (strFindingJson f) = true ∧
        4 ≤ runLen isPrintable buf f.offset ∧
        (∃ b, byteAt buf f.offset = some b ∧ isPrintable b) ∧
        f.content =
          decodeAsciiIgnore
            (slice buf f.offset (runLen isPrintable buf f.offset))) ∧
      (∀ cat items, (cat, items) ∈ CredentialHunter.analyze buf →
        ∀ f ∈ items, hasOffsetField (credFindingJson f) = true ∧
          (∃ kw ∈ credLeadsFor cat, ciLitAt kw buf f.offset = true) ∧
          ∃ gs gl, f.offset ≤ gs ∧
            f.value = truncate200 (decodeReplace (slice buf gs gl))) ∧
      (∀ f ∈ (BSONFieldAnalyzer.analyze buf).all_fields,
        hasOffsetField (bsonFieldJson f) = true ∧
          ∃ k, 1 ≤ k ∧ k ≤ 50 ∧
            (∃ b, byteAt buf f.offset = some b ∧ isIdentStart b) ∧
            (∀ b ∈ slice buf (f.offset + 1) k, isIdentCont b) ∧
            byteAt buf (f.offset + 1 + k) = some 0 ∧
            f.name = decodeIgnore (slice buf f.offset (1 + k))) ∧
      (∀ f ∈ (JSONExtractor.analyze buf).findings,
        hasOffsetField (jsonFindingJson f) = true ∧
          byteAt buf f.offset = some 123 ∧
          ∃ k, 10 ≤ k ∧ k ≤ 500 ∧
            (∀ b ∈ slice buf (f.offset + 1) k, b ≠ 0) ∧
            byteAt buf (f.offset + 1 + k) = some 125 ∧
            jsonParse (decodeIgnore (slice buf f.offset (k + 2))) =
              some f.data) ∧
      (∀ j ∈ emailFindingsJson buf,
        hasOffsetField j = false ∧ ∃ s, j = JValue.jstr s) ∧
      (∀ r, IPAddressExtractor.analyzeE buf = Except.ok r →
        ∀ j ∈ ipFindingsJson r,
          hasOffsetField j = false ∧ ∃ s, j = JValue.jstr s) := by
  refine ⟨?_, ?_, ?_, ?_, emailJson_shape buf, ?_⟩
  · intro f hf
    rcases stringFindings_post buf f hf with ⟨h1, h2, h3⟩
    exact ⟨hasOffsetField_str f, h1, h2, h3⟩
  · intro cat items hmem f hf
    exact ⟨hasOffsetField_cred f, credFindings_lead buf cat items hmem f hf⟩
  · intro f hf
    have hf2 : f ∈ BSONFieldAnalyzer.fieldNames buf := by
      simp only [BSONFieldAnalyzer.analyze] at hf
      exact List.take_subset _ _ hf
    exact ⟨hasOffsetField_bson f, fieldNames_post buf f hf2⟩
  · intro f hf
    rcases jsonFindings_post buf f hf with ⟨hb, hk⟩
    exact ⟨hasOffsetField_json f, hb, hk⟩
  · intro r _
    exact ipJson_shape r

/-- Closed instance of claim C3 (amended) on concrete buffers. -/
theorem claim3_finding_offsets_witness :
    hasOffsetField
        (strFindingJson { offset := 0, length := 5, content := ("hello") }) =
      true ∧
      hasOffsetField (JValue.jstr ("a@b.cc")) = false ∧
      (∃ kw ∈ credLeadsFor ("passwords"), ciLitAt kw demoCredBuf 0 = true) := by
  refine ⟨?_, ?_, ?_⟩
  · refine ((claim3_finding_offsets (strBytes ("hello"))).1
      { offset := 0, length := 5, content := ("hello") } ?_).1
    have h : (StringExtractor.analyze (strBytes ("hello"))).findings =
        [{ offset := 0, length := 5, content := ("hello") }] := by decide
    rw [h]
    exact List.mem_singleton.mpr rfl
  · refine ((claim3_finding_offsets demoEmailBuf).2.2.2.2.1
      (JValue.jstr ("a@b.cc")) ?_).1
    have h : emailFindingsJson demoEmailBuf = [JValue.jstr ("a@b.cc")] := by
      rw [show emailFindingsJson demoEmailBuf =
        ((EmailExtractor.analyze demoEmailBuf).findings.map JValue.jstr) from rfl,
        show (EmailExtractor.analyze demoEmailBuf).findings = [("a@b.cc")] by decide]
      simp
    rw [h]
    exact List.mem_singleton.mpr rfl
  · refine (((claim3_finding_offsets demoCredBuf).2.1 ("passwords")
      [{ offset := 0, value := ("secret123") }] ?_
      { offset := 0, value := ("secret123") }
      (List.mem_singleton.mpr rfl)).2.1)
    rw [show CredentialHunter.analyze demoCredBuf =
      [(("passwords"), [{ offset := 0, value := ("secret123") }])] by decide]
    exact List.mem_singleton.mpr rfl

/-- Claim C3 counterexample: on a buffer holding one email token the
email extractor's stored findings are bare strings — the finding for
a@b.cc carries no offset key (and no offset in any other form), so not
every finding of every analyzer carries an offset. -/
theorem claim3_counterexample :
    emailFindingsJson demoEmailBuf = [JValue.jstr ("a@b.cc")] ∧
      hasOffsetField (JValue.jstr ("a@b.cc")) = false := by
  constructor
  · rw [show emailFindingsJson demoEmailBuf =
      ((EmailExtractor.analyze demoEmailBuf).findings.map JValue.jstr) from rfl,
      show (EmailExtractor.analyze demoEmailBuf).findings = [("a@b.cc")] by decide]
    simp
  · rfl

/-! ## Lemmas: decode policies of the stored values -/

theorem mem_insSortedDedup (x s : String) :
    ∀ l : List String, x ∈ insSortedDedup s l → x = s ∨ x ∈ l := by
  intro l
  induction l with
  | nil => intro h; simpa [insSortedDedup] using h
  | cons t ts ih =>
    intro h
    simp only [insSortedDedup] at h
    split_ifs at h with h1 h2
    · rcases List.mem_cons.mp h with h3 | h3
      · exact Or.inl h3
      · exact Or.inr h3
    · exact Or.inr h
    · rcases List.mem_cons.mp h with h3 | h3
      · exact Or.inr (h3 ▸ List.mem_cons_self t ts)
      · rcases ih h3 with h4 | h4
        · exact Or.inl h4
        · exact Or.inr (List.mem_cons_of_mem t h4)

theorem mem_sortedDedup (x : String) :
    ∀ l : List String, x ∈ sortedDedup l → x ∈ l := by
  intro l
  induction l with
  | nil => intro h; simpa [sortedDedup] using h
  | cons s ss ih =>
    intro h
    have h2 : x ∈ insSortedDedup s (sortedDedup ss) := h
    rcases mem_insSortedDedup x s (sortedDedup ss) h2 with h3 | h3
    · exact h3 ▸ List.mem_cons_self s ss
    · exact List.mem_cons_of_mem s (ih h3)

theorem emailFindings_decode (buf : Buf) :
    ∀ s ∈ (EmailExtractor.analyze buf).findings,
      ∃ p n, s = decodeIgnore (slice buf p n) := by
  intro s hs
  have hs2 := mem_sortedDedup s _ hs
  rcases List.mem_map.mp hs2 with ⟨m, _, hrf⟩
  exact ⟨m.1, m.2, hrf.symm⟩

theorem bsonFindings_decode (buf : Buf) :
    ∀ f ∈ (BSONFieldAnalyzer.analyze buf).all_fields,
      ∃ p n, f.name = decodeIgnore (slice buf p n) := by
  intro f hf
  simp only [BSONFieldAnalyzer.analyze] at hf
  have hf2 : f ∈ BSONFieldAnalyzer.fieldNames buf := List.take_subset _ _ hf
  rcases List.mem_map.mp hf2 with ⟨m, _, hrf⟩
  exact ⟨m.1, 1 + m.2, by rw [← hrf]⟩

theorem stringFindings_decode (buf : Buf) :
    ∀ f ∈ (StringExtractor.analyze buf).findings,
      ∃ p n, f.content = decodeAsciiIgnore (slice buf p n) := by
  intro f hf
  simp only [StringExtractor.analyze] at hf
  have hf2 := List.take_subset 500 _ hf
  rcases List.mem_map.mp hf2 with ⟨m, _, hrf⟩
  exact ⟨m.1, m.2, by rw [← hrf]⟩

/-- Claim C7 (amended): every stored value is produced by a decode
that cannot raise, but the lossy replacement policy is used only by
the credential hunter; the BSON, email and string extractors drop
invalid (or non-ASCII) bytes instead of replacing them, a JSON
finding is kept exactly when its candidate parses after the dropping
decode, and the IP extractor applies a strict decode that still never
fails on its digit-and-dot candidates. -/
theorem claim7_decode_policy (buf : Buf) :
    (∀ cat items, (cat, items) ∈ CredentialHunter.analyze buf →
      ∀ f ∈ items, ∃ gs gl,
        f.value = truncate200 (decodeReplace (slice buf gs gl))) ∧
      (∀ f ∈ (BSONFieldAnalyzer.analyze buf).all_fields,
        ∃ p n, f.name = decodeIgnore (slice buf p n)) ∧
      (∀ s ∈ (EmailExtractor.analyze buf).findings,
        ∃ p n, s = decodeIgnore (slice buf p n)) ∧
      (∀ f ∈ (StringExtractor.analyze buf).findings,
        ∃ p n, f.content = decodeAsciiIgnore (slice buf p n)) ∧
      (∀ m ∈ jsonCandidates buf, ∀ v, jsonParse (decodeIgnore m.2) = some v →
        (⟨m.1, v⟩ : JsonFinding) ∈ (JSONExtractor.analyze buf).findings) ∧
      (∃ r, IPAddressExtractor.analyzeE buf = Except.ok r) := by
  refine ⟨?_, bsonFindings_decode buf, emailFindings_decode buf,
    stringFindings_decode buf, ?_, ipAnalyzeE_ok buf⟩
  · intro cat items hmem f hf
    rcases credAnalyze_mem buf cat items hmem with ⟨pats, _, hi, _⟩
    have hfr : f ∈ CredentialHunter.rawFindings buf pats :=
      (dedupSeen_sublist _ []).subset (hi ▸ hf)
    exact rawFindings_value buf pats f hfr
  · intro m hm v hv
    exact json_candidate_kept buf m v hm hv

/-- Closed instance of claim C7 (amended): the credential value of the
test vector is a replace-decoded buffer span. -/
theorem claim7_decode_policy_witness :
    ∃ gs gl, (("secret123") : String) =
      truncate200 (decodeReplace (slice demoCredBuf gs gl)) := by
  have h := (claim7_decode_policy demoCredBuf).1 ("passwords")
    [{ offset := 0, value := ("secret123") }]
    (by rw [show CredentialHunter.analyze demoCredBuf =
      [(("passwords"), [{ offset := 0, value := ("secret123") }])] by decide]
        exact List.mem_singleton.mpr rfl)
    { offset := 0, value := ("secret123") } (List.mem_singleton.mpr rfl)
  exact h

/-- Claim C7 counterexample: the JSON extractor decodes candidates
with the dropping policy, not the replacing one — on demoJsonBuf the
candidate parses (and is stored) only because its invalid byte was
dropped; the replace-decoded text differs and does not parse, so the
stored finding is not obtained under the replacement policy the claim
asserts for every analyzer. -/
theorem claim7_counterexample :
    (JSONExtractor.analyze demoJsonBuf).findings =
      [⟨0, JValue.jobj [(("aaaaaaa"), JValue.jint 1)]⟩] ∧
      decodeIgnore demoJsonBuf ≠ decodeReplace demoJsonBuf ∧
      jsonParse (decodeReplace demoJsonBuf) = none := by
  refine ⟨rfl, by decide, rfl⟩

/-- Claim C10: a category key appears in the credential hunter's
result only when it collected at least one finding — the defaultdict
creates a key on the first append, and deduplication keeps at least
the first finding — so every present category has a non-empty list. -/
theorem claim10_nonempty_categories (buf : Buf) (cat : String)
    (items : List CredFinding)
    (h : (cat, items) ∈ CredentialHunter.analyze buf) : items ≠ [] := by
  rcases credAnalyze_mem buf cat items h with ⟨pats, _, hi, hne⟩
  rcases hx : CredentialHunter.rawFindings buf pats with _ | ⟨f, fs⟩
  · exact absurd hx hne
  · rw [hi, hx]
    simp [CredentialHunter.dedupSeen]

/-- Closed instance of claim C10 on the credential test vector. -/
theorem claim10_nonempty_categories_witness :
    ([{ offset := 0, value := ("secret123") }] : List CredFinding) ≠ [] := by
  refine claim10_nonempty_categories demoCredBuf ("passwords") _ ?_
  rw [show CredentialHunter.analyze demoCredBuf =
    [(("passwords"), [{ offset := 0, value := ("secret123") }])] by decide]
  exact List.mem_singleton.mpr rfl

end Mongobleed
